import Mathlib

/-!
Verification of the deterministic indexing and canonicalization pipeline of the
xray repository scanner (Rust sources under `ai.agent/rust/xray/src`).

The Rust code is shallowly embedded: pure functions become Lean functions, the
filesystem becomes an explicit tree of entries, machine integers become `Nat`
with explicit `% 2^32` where 32-bit overflow matters, and fallible operations
return `Option`/`Except`.

String ordering: Rust compares `String`s by their UTF-8 bytes.  Lexicographic
comparison of UTF-8 byte sequences coincides with lexicographic comparison of
the code-point sequences, so we model Rust's `Ord for String` by a code-point
comparison `strLt`/`strLe` on the character data.
-/

/-- Code-point comparison of character lists: Rust's lexicographic byte
comparison of UTF-8 strings. -/
def charListLt : List Char → List Char → Bool
  | _, [] => false
  | [], _ :: _ => true
  | c :: cs, d :: ds =>
    if c.toNat < d.toNat then true
    else if d.toNat < c.toNat then false
    else charListLt cs ds

/-- Rust `a < b` on strings. -/
def strLt (a b : String) : Bool := charListLt a.data b.data

/-- Rust `a <= b` on strings. -/
def strLe (a b : String) : Bool := !(strLt b a)

/-- The `≤` relation on strings induced by `strLe`, in `Prop` form, as needed
by `List.insertionSort`. -/
def Rle (a b : String) : Prop := strLe a b = true

instance : DecidableRel Rle := fun a b => instDecidableEqBool (strLe a b) true

/-- `Vec::sort` on a vector of strings (`module_files.sort()` in the source):
a stable sort by the string order. -/
def sortStrings (l : List String) : List String := l.insertionSort Rle

/-- A strictly ascending chain check over a string list, the loop body of
`validate_sort_order` in `canonical.rs` (`window[0] >= window[1]` aborts). -/
def strictlySortedStrings : List String → Bool
  | [] => true
  | [_] => true
  | a :: b :: rest => strLt a b && strictlySortedStrings (b :: rest)

/-! ## canonical.rs: the JSON value model and the canonical serializer -/

/-- `serde_json::Value`.  The index only ever serializes strings and unsigned
integers as leaves, so numbers are modelled by `Nat`. -/
inductive Json where
  | null : Json
  | bool (b : Bool) : Json
  | num (n : Nat) : Json
  | str (s : String) : Json
  | arr (elems : List Json) : Json
  | obj (fields : List (String × Json)) : Json

/-- `Map::get` on a `serde_json::Map` modelled as an association list (a
`serde_json::Map` never holds duplicate keys, so first-match lookup is exact). -/
def jlookup (k : String) : List (String × Json) → Option Json
  | [] => none
  | (k', v) :: rest => if k' = k then some v else jlookup k rest

/-- Stable sort of object fields by key, i.e. rebuilding a `serde_json::Map`
along its lexicographically sorted key list. -/
def sortPairsByKey (l : List (String × Json)) : List (String × Json) :=
  l.insertionSort (fun a b => strLe a.1 b.1 = true)

mutual
/-- `canonicalize_value` from `canonical.rs`: objects get their keys sorted
recursively, arrays are canonicalized element-wise, leaves pass through.  The
source's `canonicalize_object` sorts the key list and rebuilds the map by
lookup; since a `serde_json::Map` has pairwise-distinct keys this equals the
stable by-key sort of the field list with each value canonicalized
(`canonicalize_object_eq` below makes the step to the literal source shape). -/
def canonicalize_value : Json → Json
  | .obj fields => .obj (sortPairsByKey (canonicalize_fields fields))
  | .arr elems => .arr (canonicalize_list elems)
  | other => other

/-- Element-wise canonicalization of an object's fields. -/
def canonicalize_fields : List (String × Json) → List (String × Json)
  | [] => []
  | (k, v) :: rest => (k, canonicalize_value v) :: canonicalize_fields rest

/-- Element-wise canonicalization of an array's elements. -/
def canonicalize_list : List Json → List Json
  | [] => []
  | v :: rest => canonicalize_value v :: canonicalize_list rest
end

/-- The literal shape of `canonicalize_object` in `canonical.rs`: clone the
keys, sort them, and rebuild the object by `map.get` on each sorted key
(the `expect("key must exist")` arm is unreachable and modelled by `.null`). -/
def canonicalize_object (fields : List (String × Json)) : Json :=
  .obj ((sortStrings (fields.map (·.1))).map fun k =>
    (k, match jlookup k fields with
        | some v => canonicalize_value v
        | none => .null))

/-! ## Compact JSON serialization (`serde_json::to_vec`) -/

/-- The sixteen lowercase hex digit characters. -/
def hexChars : List Char := "0123456789abcdef".data

/-- Digit character table used for decimal and hex rendering. -/
def hexDigit (n : Nat) : Char := hexChars.getD n '0'

/-- Decimal rendering of a `Nat`, least-significant digit accumulated last
(`serde_json`'s integer formatting). -/
def decimalChars (n : Nat) (acc : List Char) : List Char :=
  let acc' := hexDigit (n % 10) :: acc
  if h : n < 10 then acc' else decimalChars (n / 10) acc'
decreasing_by exact Nat.div_lt_self (Nat.lt_of_lt_of_le (by omega) (Nat.le_of_not_lt h)) (by omega)

/-- `serde_json` string escaping for one character: `"` and `\` get a
backslash, the control characters below 0x20 get their short escapes or a
`\u00XX` form, everything else is emitted verbatim. -/
def escapeChar (c : Char) : List Char :=
  if c = '"' then ['\\', '"']
  else if c = '\\' then ['\\', '\\']
  else if c = '\x08' then ['\\', 'b']
  else if c = '\x0c' then ['\\', 'f']
  else if c = '\n' then ['\\', 'n']
  else if c = '\r' then ['\\', 'r']
  else if c = '\t' then ['\\', 't']
  else if c.toNat < 32 then ['\\', 'u', '0', '0', hexDigit (c.toNat / 16), hexDigit (c.toNat % 16)]
  else [c]

/-- A JSON string literal: quote, escape, quote. -/
def quoteString (s : String) : String :=
  ⟨'"' :: s.data.foldr (fun c acc => escapeChar c ++ acc) ['"']⟩

mutual
/-- Compact (whitespace-free) serialization of a JSON value, as emitted by
`serde_json::to_vec`; the output bytes are the UTF-8 bytes of this string. -/
def serializeJson : Json → String
  | .null => "null"
  | .bool true => "true"
  | .bool false => "false"
  | .num n => ⟨decimalChars n []⟩
  | .str s => quoteString s
  | .arr elems => "[" ++ serializeArr elems ++ "]"
  | .obj fields => "\x7b" ++ serializeObj fields ++ "\x7d"

/-- Comma-separated serialization of array elements. -/
def serializeArr : List Json → String
  | [] => ""
  | [v] => serializeJson v
  | v :: w :: rest => serializeJson v ++ "," ++ serializeArr (w :: rest)

/-- Comma-separated serialization of `"key":value` members. -/
def serializeObj : List (String × Json) → String
  | [] => ""
  | [(k, v)] => quoteString k ++ ":" ++ serializeJson v
  | (k, v) :: kw :: rest =>
    quoteString k ++ ":" ++ serializeJson v ++ "," ++ serializeObj (kw :: rest)
end

/-! ## Structural equality up to object-key permutation

`JEquiv a b` holds when `a` and `b` are the same structured value up to
reordering the fields of objects, at any depth.  Objects are required to have
pairwise-distinct keys, which is an invariant of `serde_json::Map`. -/

mutual
inductive JEquiv : Json → Json → Prop where
  | null : JEquiv .null .null
  | bool (b : Bool) : JEquiv (.bool b) (.bool b)
  | num (n : Nat) : JEquiv (.num n) (.num n)
  | str (s : String) : JEquiv (.str s) (.str s)
  | arr {xs ys : List Json} : JEquivList xs ys → JEquiv (.arr xs) (.arr ys)
  | obj {fs fs' gs : List (String × Json)} :
      (fs.map Prod.fst).Nodup → fs.Perm fs' → JEquivFields fs' gs →
      JEquiv (.obj fs) (.obj gs)

inductive JEquivList : List Json → List Json → Prop where
  | nil : JEquivList [] []
  | cons {x y : Json} {xs ys : List Json} :
      JEquiv x y → JEquivList xs ys → JEquivList (x :: xs) (y :: ys)

inductive JEquivFields : List (String × Json) → List (String × Json) → Prop where
  | nil : JEquivFields [] []
  | cons {k : String} {v w : Json} {fs gs : List (String × Json)} :
      JEquiv v w → JEquivFields fs gs → JEquivFields ((k, v) :: fs) ((k, w) :: gs)
end

/-- Boolean pairwise-distinctness of a string list. -/
def nodupStrings : List String → Bool
  | [] => true
  | s :: rest => !rest.contains s && nodupStrings rest

mutual
/-- Every object reachable inside the value has pairwise-distinct keys
(the `serde_json::Map` invariant). -/
def nodupKeysRec : Json → Bool
  | .obj fields => nodupStrings (fields.map (·.1)) && nodupKeysRecFields fields
  | .arr elems => nodupKeysRecList elems
  | _ => true

def nodupKeysRecFields : List (String × Json) → Bool
  | [] => true
  | (_, v) :: rest => nodupKeysRec v && nodupKeysRecFields rest

def nodupKeysRecList : List Json → Bool
  | [] => true
  | v :: rest => nodupKeysRec v && nodupKeysRecList rest
end

mutual
/-- Every object reachable inside the value has its keys in strictly
ascending order. -/
def keysSortedRec : Json → Bool
  | .obj fields => strictlySortedStrings (fields.map (·.1)) && keysSortedRecFields fields
  | .arr elems => keysSortedRecList elems
  | _ => true

def keysSortedRecFields : List (String × Json) → Bool
  | [] => true
  | (_, v) :: rest => keysSortedRec v && keysSortedRecFields rest

def keysSortedRecList : List Json → Bool
  | [] => true
  | v :: rest => keysSortedRec v && keysSortedRecList rest
end

/-- A character that counts as JSON insignificant whitespace. -/
def isJsonWs (c : Char) : Bool := c = ' ' || c = '\t' || c = '\n' || c = '\r'

mutual
/-- No string or key inside the value contains a whitespace character (inside
a string literal whitespace would be significant, so it is excluded when
stating that the serializer emits none). -/
def wsFreeRec : Json → Bool
  | .str s => s.data.all fun c => !isJsonWs c
  | .obj fields => wsFreeRecFields fields
  | .arr elems => wsFreeRecList elems
  | _ => true

def wsFreeRecFields : List (String × Json) → Bool
  | [] => true
  | (k, v) :: rest => (k.data.all fun c => !isJsonWs c) && wsFreeRec v && wsFreeRecFields rest

def wsFreeRecList : List Json → Bool
  | [] => true
  | v :: rest => wsFreeRec v && wsFreeRecList rest
end

/-! ## hash.rs: SHA-256 and `compute_file_hash` -/

/-- Truncation to a 32-bit word. -/
def w32 (n : Nat) : Nat := n % 4294967296

/-- 32-bit right rotation. -/
def rotr32 (n x : Nat) : Nat := ((x >>> n) ||| (x <<< (32 - n))) % 4294967296

/-- 32-bit bitwise complement (`xor` with the all-ones word). -/
def notw (x : Nat) : Nat := 4294967295 ^^^ x

/-- The SHA-256 round constants (decimal). -/
def shaK : List Nat :=
  [1116352408, 1899447441, 3049323471, 3921009573,
   961987163, 1508970993, 2453635748, 2870763221,
   3624381080, 310598401, 607225278, 1426881987,
   1925078388, 2162078206, 2614888103, 3248222580,
   3835390401, 4022224774, 264347078, 604807628,
   770255983, 1249150122, 1555081692, 1996064986,
   2554220882, 2821834349, 2952996808, 3210313671,
   3336571891, 3584528711, 113926993, 338241895,
   666307205, 773529912, 1294757372, 1396182291,
   1695183700, 1986661051, 2177026350, 2456956037,
   2730485921, 2820302411, 3259730800, 3345764771,
   3516065817, 3600352804, 4094571909, 275423344,
   430227734, 506948616, 659060556, 883997877,
   958139571, 1322822218, 1537002063, 1747873779,
   1955562222, 2024104815, 2227730452, 2361852424,
   2428436474, 2756734187, 3204031479, 3329325298]

/-- The SHA-256 working state: eight 32-bit words. -/
structure Sha256State where
  a : Nat
  b : Nat
  c : Nat
  d : Nat
  e : Nat
  f : Nat
  g : Nat
  h : Nat

/-- The SHA-256 initial hash value. -/
def shaInit : Sha256State :=
  ⟨1779033703, 3144134277, 1013904242, 2773480762,
   1359893119, 2600822924, 528734635, 1541459225⟩

/-- Big-endian 32-bit words from a byte list. -/
def bytesToWords : List Nat → List Nat
  | b0 :: b1 :: b2 :: b3 :: rest =>
    (b0 * 16777216 + b1 * 65536 + b2 * 256 + b3) :: bytesToWords rest
  | _ => []

/-- SHA-256 message-schedule sigma functions. -/
def smallSigma0 (x : Nat) : Nat := rotr32 7 x ^^^ rotr32 18 x ^^^ (x >>> 3)

def smallSigma1 (x : Nat) : Nat := rotr32 17 x ^^^ rotr32 19 x ^^^ (x >>> 10)

/-- Extend the 16-word schedule by the given number of words (48 for SHA-256). -/
def extendSchedule (w : List Nat) : Nat → List Nat
  | 0 => w
  | n + 1 =>
    extendSchedule
      (w ++ [w32 (smallSigma1 (w.getD (w.length - 2) 0) + w.getD (w.length - 7) 0 +
                  smallSigma0 (w.getD (w.length - 15) 0) + w.getD (w.length - 16) 0)]) n

/-- One SHA-256 compression round. -/
def compressWord (st : Sha256State) (k w : Nat) : Sha256State :=
  let s1 := rotr32 6 st.e ^^^ rotr32 11 st.e ^^^ rotr32 25 st.e
  let ch := (st.e &&& st.f) ^^^ (notw st.e &&& st.g)
  let temp1 := w32 (st.h + s1 + ch + k + w)
  let s0 := rotr32 2 st.a ^^^ rotr32 13 st.a ^^^ rotr32 22 st.a
  let maj := (st.a &&& st.b) ^^^ (st.a &&& st.c) ^^^ (st.b &&& st.c)
  let temp2 := w32 (s0 + maj)
  ⟨w32 (temp1 + temp2), st.a, st.b, st.c, w32 (st.d + temp1), st.e, st.f, st.g⟩

/-- Process one 64-byte block. -/
def compressBlock (st : Sha256State) (block : List Nat) : Sha256State :=
  let ws := extendSchedule (bytesToWords block) 48
  let t := (shaK.zip ws).foldl (fun s kw => compressWord s kw.1 kw.2) st
  ⟨w32 (st.a + t.a), w32 (st.b + t.b), w32 (st.c + t.c), w32 (st.d + t.d),
   w32 (st.e + t.e), w32 (st.f + t.f), w32 (st.g + t.g), w32 (st.h + t.h)⟩

/-- Big-endian 8-byte rendering of the message bit length. -/
def lenBytes8 (n : Nat) : List Nat :=
  [n >>> 56 % 256, n >>> 48 % 256, n >>> 40 % 256, n >>> 32 % 256,
   n >>> 24 % 256, n >>> 16 % 256, n >>> 8 % 256, n % 256]

/-- SHA-256 padding: `0x80`, zeros to 56 mod 64, then the bit length. -/
def padMessage (msg : List Nat) : List Nat :=
  let len := msg.length
  let z := (64 - ((len + 9) % 64)) % 64
  msg ++ 0x80 :: (List.replicate z 0 ++ lenBytes8 (8 * len))

/-- Split a byte list into 64-byte blocks. -/
def chunks64 : List Nat → List (List Nat)
  | [] => []
  | b :: rest => (b :: rest).take 64 :: chunks64 ((b :: rest).drop 64)
termination_by l => l.length
decreasing_by simp [List.length_drop]; omega

/-- Big-endian bytes of one 32-bit word. -/
def wordBytes (x : Nat) : List Nat := [x >>> 24 % 256, x >>> 16 % 256, x >>> 8 % 256, x % 256]

/-- SHA-256 of a byte sequence, as 32 bytes. -/
def sha256 (msg : List Nat) : List Nat :=
  let fin := (chunks64 (padMessage msg)).foldl compressBlock shaInit
  wordBytes fin.a ++ wordBytes fin.b ++ wordBytes fin.c ++ wordBytes fin.d ++
  wordBytes fin.e ++ wordBytes fin.f ++ wordBytes fin.g ++ wordBytes fin.h

/-- `hex::encode`: two lowercase hex digits per byte. -/
def hexEncode (bytes : List Nat) : String :=
  ⟨bytes.foldr (fun b acc => hexDigit (b / 16) :: hexDigit (b % 16) :: acc) []⟩

/-- `compute_file_hash` from `hash.rs`.  The file is reached through the
filesystem, so the input is `none` when opening or reading fails (the function
then propagates an error) and `some bytes` when the content is readable. -/
def compute_file_hash (content : Option (List Nat)) : Except String String :=
  match content with
  | none => .error "Failed to open file for hashing"
  | some bytes => .ok ("sha256:" ++ hexEncode (sha256 bytes))

/-! ## loc.rs: line counting -/

def LOC_BIG_FILE_CAP_BYTES : Nat := 2 * 1024 * 1024

structure LocStats where
  loc : Nat
  size : Nat
  skipped : Bool
  deriving DecidableEq

/-- A UTF-8 continuation byte. -/
def isCont (b : Nat) : Bool := 128 ≤ b && b < 192

/-- Strict UTF-8 decoding of a byte list into code points, rejecting overlong
forms, surrogates, and values beyond U+10FFFF, as `String::from_utf8` does. -/
def utf8Decode : List Nat → Option (List Nat)
  | [] => some []
  | b :: rest =>
    if b < 0x80 then (utf8Decode rest).map (b :: ·)
    else if b < 0xC2 then none
    else if b < 0xE0 then
      match rest with
      | b1 :: rest1 =>
        if isCont b1 then (utf8Decode rest1).map (((b - 0xC0) * 64 + (b1 - 0x80)) :: ·)
        else none
      | [] => none
    else if b < 0xF0 then
      match rest with
      | b1 :: b2 :: rest2 =>
        if (if b = 0xE0 then decide (0xA0 ≤ b1 ∧ b1 < 0xC0)
            else if b = 0xED then decide (0x80 ≤ b1 ∧ b1 < 0xA0)
            else isCont b1) && isCont b2 then
          (utf8Decode rest2).map (((b - 0xE0) * 4096 + (b1 - 0x80) * 64 + (b2 - 0x80)) :: ·)
        else none
      | _ => none
    else if b < 0xF5 then
      match rest with
      | b1 :: b2 :: b3 :: rest3 =>
        if (if b = 0xF0 then decide (0x90 ≤ b1 ∧ b1 < 0xC0)
            else if b = 0xF4 then decide (0x80 ≤ b1 ∧ b1 < 0x90)
            else isCont b1) && isCont b2 && isCont b3 then
          (utf8Decode rest3).map
            (((b - 0xF0) * 262144 + (b1 - 0x80) * 4096 + (b2 - 0x80) * 64 + (b3 - 0x80)) :: ·)
        else none
      | _ => none
    else none

/-- Split a code-point sequence at each occurrence of the given separator. -/
def splitOnByte (sep : Nat) : List Nat → List (List Nat)
  | [] => [[]]
  | c :: rest =>
    if c = sep then [] :: splitOnByte sep rest
    else
      match splitOnByte sep rest with
      | [] => [[c]]
      | s :: ss => (c :: s) :: ss

/-- Drop the final segment when it is empty: `str::lines` does not yield a
final empty line after a trailing newline. -/
def dropLastEmptySeg : List (List Nat) → List (List Nat)
  | [] => []
  | [s] => if s = [] then [] else [s]
  | s :: t :: rest => s :: dropLastEmptySeg (t :: rest)

/-- Remove one trailing carriage return, as `str::lines` does per line. -/
def stripTrailingCr (l : List Nat) : List Nat :=
  match l.reverse with
  | 13 :: r => r.reverse
  | _ => l

/-- The lines of a decoded text, with `str::lines` semantics: split at `\n`,
tolerate `\r\n`, and do not count a final empty segment. -/
def rustLines (cs : List Nat) : List (List Nat) :=
  (dropLastEmptySeg (splitOnByte 10 cs)).map stripTrailingCr

/-- `compute_loc` from `loc.rs`.  `size` is the byte size reported by the file
metadata and `content` the bytes that a full read returns; files over the cap
are skipped before any read, empty files return early, and non-UTF-8 content
is reported as skipped. -/
def compute_loc (size : Nat) (content : List Nat) : LocStats :=
  if size > LOC_BIG_FILE_CAP_BYTES then ⟨0, size, true⟩
  else if size = 0 then ⟨0, 0, false⟩
  else
    match utf8Decode content with
    | some text => ⟨(rustLines text).length, size, false⟩
    | none => ⟨0, size, true⟩

/-! ## language.rs -/

/-- ASCII lowercasing of a string. -/
def toLowerAscii (s : String) : String :=
  ⟨s.data.map fun c => if 65 ≤ c.toNat && c.toNat ≤ 90 then Char.ofNat (c.toNat + 32) else c⟩

/-- `Path::file_name`: the last `/`-separated segment. -/
def lastSegment (p : String) : String := ⟨(p.data.reverse.takeWhile (· ≠ '/')).reverse⟩

/-- `Path::extension` on a file name: the part after the last `.`, unless the
name starts with its only `.`. -/
def extOf (name : String) : Option String :=
  match name.data with
  | [] => none
  | c :: rest =>
    let body := if c = '.' then rest else c :: rest
    if body.contains '.' then some ⟨(body.reverse.takeWhile (· ≠ '.')).reverse⟩ else none

/-- The fixed extension table of `detect_language`. -/
def extLanguage (e : String) : String :=
  match e with
  | "go" => "Go"
  | "rs" => "Rust"
  | "md" => "Markdown"
  | "json" => "JSON"
  | "js" => "JavaScript"
  | "ts" => "TypeScript"
  | "yaml" => "YAML"
  | "yml" => "YAML"
  | "toml" => "TOML"
  | "sh" => "Shell"
  | "bash" => "Shell"
  | "html" => "HTML"
  | "htm" => "HTML"
  | "css" => "CSS"
  | "sql" => "SQL"
  | "py" => "Python"
  | "java" => "Java"
  | "c" => "C"
  | "h" => "C"
  | "cpp" => "C++"
  | "hpp" => "C++"
  | "cc" => "C++"
  | "cxx" => "C++"
  | "tf" => "Terraform"
  | "txt" => "Text"
  | "text" => "Text"
  | _ => "Unknown"

/-- `detect_language` from `language.rs`: case-insensitive special file names
first, then the lowercased extension table, otherwise `"Unknown"`. -/
def detect_language (path : String) : String :=
  let name := lastSegment path
  if toLowerAscii name = "dockerfile" then "Dockerfile"
  else if toLowerAscii name = "makefile" then "Makefile"
  else
    match extOf name with
    | some e => extLanguage (toLowerAscii e)
    | none => "Unknown"

/-! ## schema.rs -/

structure FileNode where
  path : String
  size : Nat
  hash : String
  lang : String
  loc : Nat
  complexity : Nat
  deriving DecidableEq

structure RepoStats where
  file_count : Nat
  total_size : Nat
  deriving DecidableEq

/-- The index.  The two `BTreeMap`s are modelled as association lists kept in
ascending key order by their only mutation, `bumpKey`. -/
structure XrayIndex where
  schema_version : String
  root : String
  target : String
  files : List FileNode
  languages : List (String × Nat)
  top_dirs : List (String × Nat)
  module_files : List String
  stats : RepoStats
  digest : String
  deriving DecidableEq

/-- `serde_json::to_value` of a `FileNode` (camelCase field names, struct
declaration order). -/
def FileNode.toJson (f : FileNode) : Json :=
  .obj [("path", .str f.path), ("size", .num f.size), ("hash", .str f.hash),
        ("lang", .str f.lang), ("loc", .num f.loc), ("complexity", .num f.complexity)]

/-- `serde_json::to_value` of an `XrayIndex` (camelCase field names, struct
declaration order; the serializer then sorts keys). -/
def XrayIndex.toJson (idx : XrayIndex) : Json :=
  .obj [("schemaVersion", .str idx.schema_version),
        ("root", .str idx.root),
        ("target", .str idx.target),
        ("files", .arr (idx.files.map FileNode.toJson)),
        ("languages", .obj (idx.languages.map fun kv => (kv.1, .num kv.2))),
        ("topDirs", .obj (idx.top_dirs.map fun kv => (kv.1, .num kv.2))),
        ("moduleFiles", .arr (idx.module_files.map .str)),
        ("stats", .obj [("fileCount", .num idx.stats.file_count),
                        ("totalSize", .num idx.stats.total_size)]),
        ("digest", .str idx.digest)]

/-- `to_canonical_json` from `canonical.rs`: convert the index to a JSON value,
canonicalize it recursively, and serialize compactly.  The output bytes are the
UTF-8 bytes of this string. -/
def to_canonical_json (idx : XrayIndex) : String :=
  serializeJson (canonicalize_value idx.toJson)

/-- `validate_sort_order` from `canonical.rs`: every adjacent pair of file
paths and of module files must be strictly ascending. -/
def validate_sort_order (idx : XrayIndex) : Bool :=
  strictlySortedStrings (idx.files.map (·.path)) && strictlySortedStrings idx.module_files

/-- UTF-8 encoding of one code point. -/
def utf8EncodeChar (c : Char) : List Nat :=
  let n := c.toNat
  if n < 0x80 then [n]
  else if n < 0x800 then [0xC0 + n / 64, 0x80 + n % 64]
  else if n < 0x10000 then [0xE0 + n / 4096, 0x80 + n / 64 % 64, 0x80 + n % 64]
  else [0xF0 + n / 262144, 0x80 + n / 4096 % 64, 0x80 + n / 64 % 64, 0x80 + n % 64]

/-- The UTF-8 bytes of a string. -/
def strUtf8Bytes (s : String) : List Nat :=
  s.data.foldr (fun c acc => utf8EncodeChar c ++ acc) []

/-! ## digest.rs -/

/-- `files.sort_by(|a, b| a.path.cmp(&b.path))`: a stable sort by path. -/
def sortFilesByPath (files : List FileNode) : List FileNode :=
  files.insertionSort fun a b => strLe a.path b.path = true

/-- `calculate_digest` from `digest.rs`: clone the index with an empty digest
field, re-establish the sort invariants on `files` and `module_files`, and
hash the canonical serialization with SHA-256 (hex-encoded). -/
def calculate_digest (index : XrayIndex) : String :=
  let clone : XrayIndex := { index with digest := "" }
  let clone2 : XrayIndex :=
    { clone with
      files := sortFilesByPath clone.files,
      module_files := sortStrings clone.module_files }
  hexEncode (sha256 (strUtf8Bytes (to_canonical_json clone2)))

/-! ## traversal.rs: the traversal engine over a filesystem tree

The filesystem is modelled as a tree of named entries.  `walkdir` with
`follow_links(false)` visits exactly this tree; `filter_entry(|e| !is_ignored(e))`
prunes every entry (file or directory) whose name is in the ignore set, so a
pruned directory's whole subtree disappears.  A file's `hashFail` flag models
the separate open/read the hasher performs failing for that file. -/

/-- `IGNORED_DIRS` from `traversal.rs`. -/
def IGNORED_DIRS : List String :=
  [".git", "node_modules", "dist", "build", "out", "vendor", "target",
   ".cache", ".tmp", "coverage", ".xraycache", ".ai-context"]

/-- `MODULE_FILES_LOOKUP` from `traversal.rs`. -/
def MODULE_FILES_LOOKUP : List String :=
  ["go.mod", "Cargo.toml", "package.json", ".git", "Makefile", "Dockerfile"]

/-- The `is_ignored` closure: the entry's file name is in the ignore set. -/
def isIgnoredEntryName (n : String) : Bool := IGNORED_DIRS.contains n

/-- A directory entry: a regular file with content, or a subdirectory. -/
inductive FsEntry where
  | file (name : String) (content : List Nat) (hashFail : Bool) : FsEntry
  | dir (name : String) (entries : List FsEntry) : FsEntry

/-- The name of an entry. -/
def FsEntry.nameOf : FsEntry → String
  | .file n _ _ => n
  | .dir n _ => n

/-- A surviving regular file as the walk delivers it: its `/`-joined relative
path, its content, and whether the hasher's separate read fails. -/
structure RawFile where
  path : String
  content : List Nat
  hashFail : Bool
  deriving DecidableEq

/-- The files delivered by the pruned depth-first walk, with paths relative to
the scan target and joined with `/`. -/
def walkFiles : List FsEntry → List RawFile
  | [] => []
  | .file n c hf :: rest =>
    if isIgnoredEntryName n then walkFiles rest
    else ⟨n, c, hf⟩ :: walkFiles rest
  | .dir n es :: rest =>
    (if isIgnoredEntryName n then []
     else (walkFiles es).map fun r => ⟨n ++ "/" ++ r.path, r.content, r.hashFail⟩)
    ++ walkFiles rest

/-- `*map.entry(k).or_insert(0) += 1` on a `BTreeMap` kept as a sorted
association list. -/
def bumpKey (k : String) : List (String × Nat) → List (String × Nat)
  | [] => [(k, 1)]
  | (k', v) :: rest =>
    if k' = k then (k', v + 1) :: rest
    else if strLt k k' then (k, 1) :: (k', v) :: rest
    else (k', v) :: bumpKey k rest

/-- The top-level directory bucket: the segment before the first `/`, or `"."`
for a root-level file. -/
def topDirOf (p : String) : String :=
  if p.data.contains '/' then ⟨p.data.takeWhile (· ≠ '/')⟩ else "."

/-- The accumulators of the scan loop in `scan_target`. -/
structure ScanAcc where
  files : List FileNode
  total_size : Nat
  languages : List (String × Nat)
  top_dirs : List (String × Nat)
  module_files : List String

/-- Line 91 of `traversal.rs`: `compute_file_hash(path).unwrap_or_else(|_| "")`. -/
def hashOrEmpty (r : RawFile) : String :=
  match compute_file_hash (if r.hashFail then none else some r.content) with
  | .ok hsh => hsh
  | .error _ => ""

/-- The `FileNode` pushed for one surviving file (lines 135-142). -/
def mkFileNode (r : RawFile) : FileNode :=
  let locStats := compute_loc r.content.length r.content
  { path := r.path, size := locStats.size, hash := hashOrEmpty r,
    lang := detect_language r.path, loc := locStats.loc, complexity := 0 }

/-- One iteration of the walk loop in `scan_target` (lines 52-143): line
counting, size accumulation, hashing, language and top-dir aggregation,
module-file detection, and the file-record push. -/
def processOne (acc : ScanAcc) (r : RawFile) : ScanAcc :=
  let locStats := compute_loc r.content.length r.content
  let lang := detect_language r.path
  { files := acc.files ++ [mkFileNode r],
    total_size := acc.total_size + locStats.size,
    languages := if lang ≠ "Unknown" then bumpKey lang acc.languages else acc.languages,
    top_dirs := bumpKey (topDirOf r.path) acc.top_dirs,
    module_files :=
      if !(r.path.data.contains '/') && MODULE_FILES_LOOKUP.contains r.path then
        acc.module_files ++ [r.path]
      else acc.module_files }

/-- The walk loop over all surviving files. -/
def scanLoop : ScanAcc → List RawFile → ScanAcc
  | acc, [] => acc
  | acc, r :: rest => scanLoop (processOne acc r) rest

/-- The result struct of `scan_target`. -/
structure ScanResult where
  files : List FileNode
  stats : RepoStats
  languages : List (String × Nat)
  top_dirs : List (String × Nat)
  module_files : List String

/-- `scan_target` from `traversal.rs` on the tree of entries of the target
directory: the explicit root `.git` check, the pruned walk, the per-file loop,
and the final determinism sorts. -/
def scan_target (entries : List FsEntry) : ScanResult :=
  let initModules : List String :=
    if entries.any (fun e => e.nameOf = ".git") then [".git"] else []
  let acc := scanLoop ⟨[], 0, [], [], initModules⟩ (walkFiles entries)
  let sortedFiles := sortFilesByPath acc.files
  { files := sortedFiles,
    stats := { file_count := sortedFiles.length, total_size := acc.total_size },
    languages := acc.languages,
    top_dirs := acc.top_dirs,
    module_files := sortStrings acc.module_files }

/-- Steps 2 and 3 of `run_scan` in `main.rs`: populate the index from the scan
result, then store the computed digest. -/
def build_index (root target : String) (sr : ScanResult) : XrayIndex :=
  let index : XrayIndex :=
    { schema_version := "1.0.0", root := root, target := target,
      files := sr.files, languages := sr.languages, top_dirs := sr.top_dirs,
      module_files := sr.module_files, stats := sr.stats, digest := "" }
  { index with digest := calculate_digest index }

/-- Well-formedness of an entry name as the filesystem guarantees it:
non-empty and free of the path separator. -/
def nameOkStr (n : String) : Bool := !(n = "") && !(n.data.contains '/')

mutual
/-- Filesystem well-formedness of one entry: its own name is well formed and,
for a directory, its children have pairwise-distinct names and are themselves
well formed. -/
def entryOk : FsEntry → Bool
  | .file n _ _ => nameOkStr n
  | .dir n es => nameOkStr n && nodupStrings (es.map FsEntry.nameOf) && entriesOk es

def entriesOk : List FsEntry → Bool
  | [] => true
  | e :: rest => entryOk e && entriesOk rest
end

/-- Filesystem well-formedness of a directory's entry list. -/
def treeOk (es : List FsEntry) : Bool :=
  nodupStrings (es.map FsEntry.nameOf) && entriesOk es

/-- The `/`-separated segments of a relative path. -/
def splitOnSlash : List Char → List (List Char)
  | [] => [[]]
  | c :: rest =>
    if c = '/' then [] :: splitOnSlash rest
    else
      match splitOnSlash rest with
      | [] => [[c]]
      | s :: ss => (c :: s) :: ss

/-- The segments of a path string. -/
def pathSegments (p : String) : List String := (splitOnSlash p.data).map fun cs => ⟨cs⟩

/-- The sum of the counts of an aggregation map. -/
def sumValues (m : List (String × Nat)) : Nat := (m.map (·.2)).sum

/-- Structural induction for the nested `Json` type, with membership-based
hypotheses for arrays and objects. -/
def Json.indOn (P : Json → Prop)
    (hnull : P .null) (hbool : ∀ b, P (.bool b)) (hnum : ∀ n, P (.num n))
    (hstr : ∀ s, P (.str s))
    (harr : ∀ elems, (∀ v ∈ elems, P v) → P (.arr elems))
    (hobj : ∀ fields, (∀ kv ∈ fields, P kv.2) → P (.obj fields)) : ∀ v, P v
  | .null => hnull
  | .bool b => hbool b
  | .num n => hnum n
  | .str s => hstr s
  | .arr elems =>
    harr elems fun v _ => Json.indOn P hnull hbool hnum hstr harr hobj v
  | .obj fields =>
    hobj fields fun kv _ => Json.indOn P hnull hbool hnum hstr harr hobj kv.2
termination_by v => sizeOf v
decreasing_by
  · rename_i hv
    have := List.sizeOf_lt_of_mem hv
    simp only [Json.arr.sizeOf_spec]
    omega
  · rename_i kv hkv
    have h1 := List.sizeOf_lt_of_mem hkv
    obtain ⟨k, v⟩ := kv
    simp only [Json.obj.sizeOf_spec] at *
    simp only [Prod.mk.sizeOf_spec] at h1
    omega

/-- Structural induction for the nested `FsEntry` tree, with membership-based
hypotheses for directories. -/
def FsEntry.indOn (P : List FsEntry → Prop)
    (hnil : P [])
    (hfile : ∀ n c hf rest, P rest → P (.file n c hf :: rest))
    (hdir : ∀ n es rest, P es → P rest → P (.dir n es :: rest)) : ∀ es, P es
  | [] => hnil
  | .file n c hf :: rest => hfile n c hf rest (FsEntry.indOn P hnil hfile hdir rest)
  | .dir n es :: rest =>
    hdir n es rest (FsEntry.indOn P hnil hfile hdir es) (FsEntry.indOn P hnil hfile hdir rest)
termination_by es => sizeOf es
decreasing_by
  all_goals simp [FsEntry.dir.sizeOf_spec]
  all_goals omega

/-! # Theorems

## The string order -/

theorem char_eq_of_toNat_eq {c d : Char} (h : c.toNat = d.toNat) : c = d :=
  Char.eq_of_val_eq (UInt32.eq_of_toBitVec_eq (BitVec.eq_of_toNat_eq h))

theorem charListLt_irrefl : ∀ l : List Char, charListLt l l = false
  | [] => rfl
  | c :: cs => by simp [charListLt, charListLt_irrefl cs]

theorem charListLt_asymm : ∀ {l1 l2 : List Char},
    charListLt l1 l2 = true → charListLt l2 l1 = false := by
  intro l1
  induction l1 with
  | nil => intro l2 h; cases l2 <;> simp [charListLt] at h ⊢
  | cons c cs ih =>
    intro l2 h
    cases l2 with
    | nil => simp [charListLt] at h
    | cons d ds =>
      simp only [charListLt] at h ⊢
      rcases Nat.lt_trichotomy c.toNat d.toNat with hcd | hcd | hcd
      · simp [Nat.lt_asymm hcd, hcd]
      · simp only [hcd, lt_irrefl, if_false] at h ⊢
        exact ih h
      · simp [hcd, Nat.lt_asymm hcd] at h

theorem charListLt_trans : ∀ {l1 l2 l3 : List Char},
    charListLt l1 l2 = true → charListLt l2 l3 = true → charListLt l1 l3 = true := by
  intro l1
  induction l1 with
  | nil =>
    intro l2 l3 h12 h23
    cases l2 with
    | nil => simp [charListLt] at h12
    | cons d ds =>
      cases l3 with
      | nil => simp [charListLt] at h23
      | cons e es => simp [charListLt]
  | cons c cs ih =>
    intro l2 l3 h12 h23
    cases l2 with
    | nil => simp [charListLt] at h12
    | cons d ds =>
      cases l3 with
      | nil => simp [charListLt] at h23
      | cons e es =>
        simp only [charListLt] at h12 h23 ⊢
        rcases Nat.lt_trichotomy c.toNat d.toNat with hcd | hcd | hcd
        · rcases Nat.lt_trichotomy d.toNat e.toNat with hde | hde | hde
          · simp [Nat.lt_trans hcd hde]
          · have hce : c.toNat < e.toNat := by omega
            simp [hce]
          · simp [Nat.lt_asymm hde, hde] at h23
        · rcases Nat.lt_trichotomy d.toNat e.toNat with hde | hde | hde
          · have hce : c.toNat < e.toNat := by omega
            simp [hce]
          · have hce : c.toNat = e.toNat := hcd.trans hde
            simp only [hcd, lt_irrefl, if_false] at h12
            simp only [hde, lt_irrefl, if_false] at h23
            simp only [hce, lt_irrefl, if_false]
            exact ih h12 h23
          · simp [Nat.lt_asymm hde, hde] at h23
        · simp [Nat.lt_asymm hcd, hcd] at h12

theorem charListLt_connex : ∀ {l1 l2 : List Char},
    charListLt l1 l2 = false → charListLt l2 l1 = false → l1 = l2 := by
  intro l1
  induction l1 with
  | nil =>
    intro l2 h12 _
    cases l2 with
    | nil => rfl
    | cons d ds => simp [charListLt] at h12
  | cons c cs ih =>
    intro l2 h12 h21
    cases l2 with
    | nil => simp [charListLt] at h21
    | cons d ds =>
      simp only [charListLt] at h12 h21
      rcases Nat.lt_trichotomy c.toNat d.toNat with hcd | hcd | hcd
      · simp [hcd] at h12
      · simp only [hcd, lt_irrefl, if_false] at h12 h21
        rw [char_eq_of_toNat_eq hcd, ih h12 h21]
      · simp [hcd] at h21

theorem strLt_asymm {a b : String} (h : strLt a b = true) : strLt b a = false :=
  charListLt_asymm h

theorem strLe_refl (a : String) : strLe a a = true := by
  simp [strLe, strLt, charListLt_irrefl]

theorem str_eq_of_data_eq {a b : String} (h : a.data = b.data) : a = b := by
  cases a; cases b; exact congrArg String.mk h

theorem strLe_total (a b : String) : strLe a b = true ∨ strLe b a = true := by
  cases hb : strLt b a with
  | false => left; simp [strLe, hb]
  | true =>
    right
    simp only [strLt] at hb
    simp only [strLe, strLt, Bool.not_eq_true']
    exact charListLt_asymm hb

theorem strLe_antisymm {a b : String} (h1 : strLe a b = true) (h2 : strLe b a = true) :
    a = b := by
  simp only [strLe, strLt, Bool.not_eq_true'] at h1 h2
  exact str_eq_of_data_eq (charListLt_connex h2 h1)

theorem strLe_trans {a b c : String} (h1 : strLe a b = true) (h2 : strLe b c = true) :
    strLe a c = true := by
  simp only [strLe, strLt, Bool.not_eq_true'] at h1 h2 ⊢
  by_cases hca : charListLt c.data a.data = true
  · exfalso
    by_cases hbc : charListLt b.data c.data = true
    · have hba := charListLt_trans hbc hca
      rw [h1] at hba
      exact Bool.false_ne_true hba
    · have hbc0 : charListLt b.data c.data = false := by
        cases hx : charListLt b.data c.data
        · rfl
        · exact absurd hx hbc
      have hdata : b.data = c.data := charListLt_connex hbc0 h2
      rw [hdata] at h1
      rw [hca] at h1
      exact Bool.false_ne_true h1.symm
  · cases hx : charListLt c.data a.data
    · rfl
    · exact absurd hx hca

theorem strLt_of_le_of_ne {a b : String} (h1 : strLe a b = true) (h2 : a ≠ b) :
    strLt a b = true := by
  simp only [strLe, strLt, Bool.not_eq_true'] at h1
  simp only [strLt]
  cases hx : charListLt a.data b.data
  · exact absurd (str_eq_of_data_eq (charListLt_connex hx h1)) h2
  · rfl

instance : IsTotal String Rle := ⟨strLe_total⟩

instance : IsTrans String Rle := ⟨fun _ _ _ => strLe_trans⟩

instance : IsAntisymm String Rle := ⟨fun _ _ => strLe_antisymm⟩

theorem strLt_trans {a b c : String} (h1 : strLt a b = true) (h2 : strLt b c = true) :
    strLt a c = true :=
  charListLt_trans h1 h2

theorem strLt_irrefl (a : String) : strLt a a = false :=
  charListLt_irrefl a.data

theorem strLt_ne {a b : String} (h : strLt a b = true) : a ≠ b := by
  intro he
  rw [he, strLt_irrefl] at h
  exact Bool.false_ne_true h

/-- The windows-based strictness check is exactly pairwise strict ascent. -/
theorem strictlySortedStrings_iff (l : List String) :
    strictlySortedStrings l = true ↔ List.Pairwise (fun a b => strLt a b = true) l := by
  induction l with
  | nil => simp [strictlySortedStrings]
  | cons a rest ih =>
    cases rest with
    | nil => simp [strictlySortedStrings]
    | cons b rest2 =>
      simp only [strictlySortedStrings, Bool.and_eq_true, ih]
      constructor
      · rintro ⟨hab, hp⟩
        refine List.pairwise_cons.2 ⟨fun x hx => ?_, hp⟩
        rcases List.mem_cons.1 hx with rfl | hx2
        · exact hab
        · exact strLt_trans hab ((List.pairwise_cons.1 hp).1 x hx2)
      · intro hp
        rcases List.pairwise_cons.1 hp with ⟨h1, h2⟩
        exact ⟨h1 b (by simp), h2⟩

theorem nodupStrings_iff (l : List String) : nodupStrings l = true ↔ l.Nodup := by
  induction l with
  | nil => simp [nodupStrings]
  | cons s rest ih =>
    simp [nodupStrings, ih, List.nodup_cons]

/-- Two sorted lists of the same multiset of elements with pairwise-distinct
string keys are equal (the key order plays the role of an antisymmetric order
here because the keys are distinct). -/
theorem perm_sorted_key_unique {α : Type} (key : α → String) :
    ∀ {l1 l2 : List α}, l1.Perm l2 →
      List.Pairwise (fun a b => strLe (key a) (key b) = true) l1 →
      List.Pairwise (fun a b => strLe (key a) (key b) = true) l2 →
      (l1.map key).Nodup → l1 = l2 := by
  intro l1
  induction l1 with
  | nil =>
    intro l2 hperm _ _ _
    exact (List.Perm.nil_eq hperm).symm ▸ rfl
  | cons a t1 ih =>
    intro l2 hperm hs1 hs2 hnd
    cases l2 with
    | nil => exact absurd hperm.symm (by simp)
    | cons b t2 =>
      have hab : a = b := by
        have hbmem : b ∈ a :: t1 := hperm.mem_iff.2 (by simp)
        rcases List.mem_cons.1 hbmem with rfl | hbt1
        · rfl
        · have hamem : a ∈ b :: t2 := hperm.mem_iff.1 (by simp)
          rcases List.mem_cons.1 hamem with rfl | hat2
          · rfl
          · have h1 : strLe (key a) (key b) = true :=
              (List.pairwise_cons.1 hs1).1 b hbt1
            have h2 : strLe (key b) (key a) = true :=
              (List.pairwise_cons.1 hs2).1 a hat2
            have hk : key a = key b := strLe_antisymm h1 h2
            exfalso
            have : key a ∉ (t1.map key) := (List.nodup_cons.1 hnd).1
            exact this (hk ▸ List.mem_map_of_mem key hbt1)
      subst hab
      have hperm' : t1.Perm t2 := hperm.cons_inv
      rw [ih hperm' (List.pairwise_cons.1 hs1).2 (List.pairwise_cons.1 hs2).2
        (List.nodup_cons.1 hnd).2]

theorem sortStrings_perm (l : List String) : (sortStrings l).Perm l :=
  List.perm_insertionSort Rle l

theorem sortStrings_sorted (l : List String) : List.Pairwise Rle (sortStrings l) :=
  List.sorted_insertionSort Rle l

theorem sortStrings_eq_of_perm {l1 l2 : List String} (h : l1.Perm l2) :
    sortStrings l1 = sortStrings l2 :=
  List.eq_of_perm_of_sorted
    ((sortStrings_perm l1).trans (h.trans (sortStrings_perm l2).symm))
    (sortStrings_sorted l1) (sortStrings_sorted l2)

theorem sortStrings_strict {l : List String} (h : l.Nodup) :
    strictlySortedStrings (sortStrings l) = true := by
  rw [strictlySortedStrings_iff]
  have hnd : (sortStrings l).Nodup := (sortStrings_perm l).nodup_iff.2 h
  exact ((sortStrings_sorted l).and hnd).imp fun hab =>
    strLt_of_le_of_ne hab.1 hab.2

theorem sortFilesByPath_perm (l : List FileNode) : (sortFilesByPath l).Perm l :=
  List.perm_insertionSort _ l

theorem sortFilesByPath_sorted (l : List FileNode) :
    List.Pairwise (fun a b => strLe a.path b.path = true) (sortFilesByPath l) := by
  haveI : IsTotal FileNode (fun a b => strLe a.path b.path = true) :=
    ⟨fun a b => strLe_total a.path b.path⟩
  haveI : IsTrans FileNode (fun a b => strLe a.path b.path = true) :=
    ⟨fun _ _ _ => strLe_trans⟩
  exact List.sorted_insertionSort _ l

theorem sortFilesByPath_eq_of_perm {l1 l2 : List FileNode} (h : l1.Perm l2)
    (hnd : (l1.map (·.path)).Nodup) : sortFilesByPath l1 = sortFilesByPath l2 :=
  perm_sorted_key_unique (·.path)
    ((sortFilesByPath_perm l1).trans (h.trans (sortFilesByPath_perm l2).symm))
    (sortFilesByPath_sorted l1) (sortFilesByPath_sorted l2)
    (((sortFilesByPath_perm l1).map (·.path)).nodup_iff.2 hnd)

theorem sortFilesByPath_strict {l : List FileNode} (hnd : (l.map (·.path)).Nodup) :
    strictlySortedStrings ((sortFilesByPath l).map (·.path)) = true := by
  rw [strictlySortedStrings_iff]
  have hsort := sortFilesByPath_sorted l
  have hnd2 : ((sortFilesByPath l).map (·.path)).Nodup :=
    ((sortFilesByPath_perm l).map (·.path)).nodup_iff.2 hnd
  have hpw : List.Pairwise (fun a b : FileNode => a.path ≠ b.path) (sortFilesByPath l) :=
    (List.pairwise_map.1 hnd2)
  exact List.pairwise_map.2 ((hsort.and hpw).imp fun hab =>
    strLt_of_le_of_ne hab.1 hab.2)

/-! ## Canonicalization -/

theorem canonicalize_fields_eq_map (l : List (String × Json)) :
    canonicalize_fields l = l.map fun kv => (kv.1, canonicalize_value kv.2) := by
  induction l with
  | nil => simp [canonicalize_fields]
  | cons kv rest ih => cases kv; simp [canonicalize_fields, ih]

theorem canonicalize_fields_keys (l : List (String × Json)) :
    (canonicalize_fields l).map (·.1) = l.map (·.1) := by
  rw [canonicalize_fields_eq_map]
  simp

theorem canonicalize_list_eq_map (l : List Json) :
    canonicalize_list l = l.map canonicalize_value := by
  induction l with
  | nil => simp [canonicalize_list]
  | cons v rest ih => simp [canonicalize_list, ih]

theorem sortPairsByKey_perm (l : List (String × Json)) : (sortPairsByKey l).Perm l :=
  List.perm_insertionSort _ l

theorem sortPairsByKey_sorted (l : List (String × Json)) :
    List.Pairwise (fun a b => strLe a.1 b.1 = true) (sortPairsByKey l) := by
  haveI : IsTotal (String × Json) (fun a b => strLe a.1 b.1 = true) :=
    ⟨fun a b => strLe_total a.1 b.1⟩
  haveI : IsTrans (String × Json) (fun a b => strLe a.1 b.1 = true) :=
    ⟨fun _ _ _ => strLe_trans⟩
  exact List.sorted_insertionSort _ l

theorem sortPairsByKey_eq_of_perm {l1 l2 : List (String × Json)} (h : l1.Perm l2)
    (hnd : (l1.map (·.1)).Nodup) : sortPairsByKey l1 = sortPairsByKey l2 :=
  perm_sorted_key_unique (·.1)
    ((sortPairsByKey_perm l1).trans (h.trans (sortPairsByKey_perm l2).symm))
    (sortPairsByKey_sorted l1) (sortPairsByKey_sorted l2)
    (((sortPairsByKey_perm l1).map (·.1)).nodup_iff.2 hnd)

theorem jlookup_cons_ne {k k' : String} {v : Json} {rest : List (String × Json)}
    (h : k' ≠ k) : jlookup k ((k', v) :: rest) = jlookup k rest := by
  simp [jlookup, h]

/-- On a duplicate-free field list the sorted-keys-with-lookup rebuild visits
each field exactly once, so mapping the rebuild over the original key list
reproduces the field list with canonicalized values. -/
theorem map_lookup_eq_canonicalize_fields :
    ∀ (l : List (String × Json)), (l.map (·.1)).Nodup →
      ((l.map (·.1)).map fun k =>
        ((k, match jlookup k l with
             | some v => canonicalize_value v
             | none => .null) : String × Json)) = canonicalize_fields l := by
  intro l
  induction l with
  | nil => intro _; simp [canonicalize_fields]
  | cons kv rest ih =>
    intro hnd
    obtain ⟨k, v⟩ := kv
    simp only [List.map_cons] at hnd ⊢
    have hk : jlookup k ((k, v) :: rest) = some v := by simp [jlookup]
    have hrest : ∀ k', k' ∈ rest.map (·.1) →
        jlookup k' ((k, v) :: rest) = jlookup k' rest := by
      intro k' hk'
      apply jlookup_cons_ne
      intro he
      exact (List.nodup_cons.1 hnd).1 (he ▸ hk')
    rw [canonicalize_fields]
    simp only [List.map_cons, hk]
    congr 1
    have step : ∀ x ∈ rest.map (·.1),
        ((fun k0 => ((k0, match jlookup k0 ((k, v) :: rest) with
                          | some w => canonicalize_value w
                          | none => Json.null) : String × Json)) x) =
        ((fun k0 => ((k0, match jlookup k0 rest with
                          | some w => canonicalize_value w
                          | none => Json.null) : String × Json)) x) := by
      intro x hx
      simp only [hrest x hx]
    rw [List.map_congr_left step]
    exact ih (by simpa using (List.nodup_cons.1 hnd).2)

/-- Bridge to the literal source shape of `canonicalize_object`: on objects
with duplicate-free keys (the `serde_json::Map` invariant) the embedded
`canonicalize_value` agrees with the sort-keys-then-lookup rebuild of
`canonical.rs`. -/
theorem canonicalize_object_eq {fields : List (String × Json)}
    (hnd : (fields.map (·.1)).Nodup) :
    canonicalize_value (.obj fields) = canonicalize_object fields := by
  rw [canonicalize_value, canonicalize_object]
  congr 1
  have hperm : ((sortStrings (fields.map (·.1))).map fun k =>
      ((k, match jlookup k fields with
           | some v => canonicalize_value v
           | none => .null) : String × Json)).Perm (canonicalize_fields fields) := by
    have h1 := (sortStrings_perm (fields.map (·.1))).map fun k =>
      ((k, match jlookup k fields with
           | some v => canonicalize_value v
           | none => .null) : String × Json)
    exact h1.trans (map_lookup_eq_canonicalize_fields fields hnd ▸ List.Perm.refl _)
  have hsorted2 : List.Pairwise (fun a b : String × Json => strLe a.1 b.1 = true)
      ((sortStrings (fields.map (·.1))).map fun k =>
        ((k, match jlookup k fields with
             | some v => canonicalize_value v
             | none => .null) : String × Json)) := by
    apply List.pairwise_map.2
    exact (sortStrings_sorted (fields.map (·.1))).imp fun h => h
  have hnd1 : ((canonicalize_fields fields).map (·.1)).Nodup := by
    rw [canonicalize_fields_keys]; exact hnd
  refine perm_sorted_key_unique (·.1) ?_ (sortPairsByKey_sorted _) hsorted2 ?_
  · exact (sortPairsByKey_perm _).trans hperm.symm
  · exact ((sortPairsByKey_perm _).map (·.1)).nodup_iff.2 hnd1

/-- Key-permutation-equivalent values canonicalize identically. -/
theorem jequiv_canon_eq {a b : Json} (h : JEquiv a b) :
    canonicalize_value a = canonicalize_value b := by
  refine @JEquiv.rec
    (fun a b _ => canonicalize_value a = canonicalize_value b)
    (fun xs ys _ => canonicalize_list xs = canonicalize_list ys)
    (fun fs gs _ => canonicalize_fields fs = canonicalize_fields gs)
    ?_ ?_ ?_ ?_ ?_ ?_ ?_ ?_ ?_ ?_ a b h
  · rfl
  · intro b; rfl
  · intro n; rfl
  · intro s; rfl
  · intro xs ys hE ih
    simp only [canonicalize_value]
    exact congrArg Json.arr ih
  · intro fs fs' gs h1 h2 h3 ih
    simp only [canonicalize_value]
    refine congrArg Json.obj (sortPairsByKey_eq_of_perm ?_ ?_)
    · have hmap1 : (canonicalize_fields fs).Perm (canonicalize_fields fs') := by
        rw [canonicalize_fields_eq_map, canonicalize_fields_eq_map]
        exact h2.map _
      rw [ih] at hmap1
      exact hmap1
    · rw [canonicalize_fields_keys]
      exact h1
  · rfl
  · intro x y xs ys hE hL ih1 ih2
    simp only [canonicalize_list]
    rw [ih1, ih2]
  · rfl
  · intro k v w fs gs hE hF ih1 ih2
    simp only [canonicalize_fields]
    rw [ih1, ih2]

theorem nodupKeysRecList_iff (l : List Json) :
    nodupKeysRecList l = true ↔ ∀ v ∈ l, nodupKeysRec v = true := by
  induction l with
  | nil => simp [nodupKeysRecList]
  | cons v rest ih => simp [nodupKeysRecList, ih]

theorem nodupKeysRecFields_iff (l : List (String × Json)) :
    nodupKeysRecFields l = true ↔ ∀ kv ∈ l, nodupKeysRec kv.2 = true := by
  induction l with
  | nil => simp [nodupKeysRecFields]
  | cons kv rest ih => cases kv; simp [nodupKeysRecFields, ih]

theorem keysSortedRecList_iff (l : List Json) :
    keysSortedRecList l = true ↔ ∀ v ∈ l, keysSortedRec v = true := by
  induction l with
  | nil => simp [keysSortedRecList]
  | cons v rest ih => simp [keysSortedRecList, ih]

theorem keysSortedRecFields_iff (l : List (String × Json)) :
    keysSortedRecFields l = true ↔ ∀ kv ∈ l, keysSortedRec kv.2 = true := by
  induction l with
  | nil => simp [keysSortedRecFields]
  | cons kv rest ih => cases kv; simp [keysSortedRecFields, ih]

theorem wsFreeRecList_iff (l : List Json) :
    wsFreeRecList l = true ↔ ∀ v ∈ l, wsFreeRec v = true := by
  induction l with
  | nil => simp [wsFreeRecList]
  | cons v rest ih => simp [wsFreeRecList, ih]

theorem wsFreeRecFields_iff (l : List (String × Json)) :
    wsFreeRecFields l = true ↔
      ∀ kv ∈ l, (kv.1.data.all fun c => !isJsonWs c) = true ∧ wsFreeRec kv.2 = true := by
  induction l with
  | nil => simp [wsFreeRecFields]
  | cons kv rest ih =>
    obtain ⟨k, v⟩ := kv
    simp only [wsFreeRecFields, Bool.and_eq_true, ih]
    constructor
    · rintro ⟨⟨hks, hv⟩, hrest⟩ kv hkv
      rcases List.mem_cons.1 hkv with rfl | hkv2
      · exact ⟨hks, hv⟩
      · exact hrest kv hkv2
    · intro hall
      refine ⟨⟨(hall (k, v) (List.mem_cons_self _ _)).1,
        (hall (k, v) (List.mem_cons_self _ _)).2⟩, ?_⟩
      exact fun kv hkv => hall kv (List.mem_cons_of_mem _ hkv)

/-- The left side of a key-permutation equivalence satisfies the
`serde_json::Map` duplicate-free-keys invariant everywhere. -/
theorem jequiv_nodupKeys {a b : Json} (h : JEquiv a b) : nodupKeysRec a = true := by
  refine @JEquiv.rec
    (fun a _ _ => nodupKeysRec a = true)
    (fun xs _ _ => nodupKeysRecList xs = true)
    (fun fs _ _ => nodupKeysRecFields fs = true)
    ?_ ?_ ?_ ?_ ?_ ?_ ?_ ?_ ?_ ?_ a b h
  · rfl
  · intro b; rfl
  · intro n; rfl
  · intro s; rfl
  · intro xs ys hE ih
    simpa [nodupKeysRec] using ih
  · intro fs fs' gs h1 h2 h3 ih
    simp only [nodupKeysRec, Bool.and_eq_true]
    constructor
    · rw [nodupStrings_iff]
      simpa using h1
    · rw [nodupKeysRecFields_iff]
      intro kv hkv
      exact (nodupKeysRecFields_iff fs').1 ih kv (h2.mem_iff.1 hkv)
  · rfl
  · intro x y xs ys hE hL ih1 ih2
    simp [nodupKeysRecList, ih1, ih2]
  · rfl
  · intro k v w fs gs hE hF ih1 ih2
    simp [nodupKeysRecFields, ih1, ih2]

/-- Canonicalization of a value whose objects have duplicate-free keys yields
strictly sorted keys recursively. -/
theorem canon_keysSorted :
    ∀ v : Json, nodupKeysRec v = true → keysSortedRec (canonicalize_value v) = true := by
  refine Json.indOn _ ?_ ?_ ?_ ?_ ?_ ?_
  · intro _; simp [canonicalize_value, keysSortedRec]
  · intro b _; simp [canonicalize_value, keysSortedRec]
  · intro n _; simp [canonicalize_value, keysSortedRec]
  · intro s _; simp [canonicalize_value, keysSortedRec]
  · intro elems ih hn
    simp only [canonicalize_value, keysSortedRec]
    rw [keysSortedRecList_iff, canonicalize_list_eq_map]
    intro v hv
    rcases List.mem_map.1 hv with ⟨w, hw, rfl⟩
    exact ih w hw ((nodupKeysRecList_iff elems).1 (by simpa [nodupKeysRec] using hn) w hw)
  · intro fields ih hn
    simp only [nodupKeysRec, Bool.and_eq_true] at hn
    obtain ⟨hkeys, hvals⟩ := hn
    simp only [canonicalize_value, keysSortedRec, Bool.and_eq_true]
    constructor
    · rw [strictlySortedStrings_iff]
      have hsorted := sortPairsByKey_sorted (canonicalize_fields fields)
      have hndk : ((sortPairsByKey (canonicalize_fields fields)).map (·.1)).Nodup := by
        refine ((sortPairsByKey_perm _).map (·.1)).nodup_iff.2 ?_
        rw [canonicalize_fields_keys]
        exact (nodupStrings_iff _).1 hkeys
      have hpw : List.Pairwise (fun a b : String × Json => a.1 ≠ b.1)
          (sortPairsByKey (canonicalize_fields fields)) := List.pairwise_map.1 hndk
      exact List.pairwise_map.2 ((hsorted.and hpw).imp fun hab =>
        strLt_of_le_of_ne hab.1 hab.2)
    · rw [keysSortedRecFields_iff]
      intro kv hkv
      have hkv2 : kv ∈ canonicalize_fields fields := (sortPairsByKey_perm _).mem_iff.1 hkv
      rw [canonicalize_fields_eq_map] at hkv2
      rcases List.mem_map.1 hkv2 with ⟨⟨k0, v0⟩, hv0, rfl⟩
      exact ih _ hv0 ((nodupKeysRecFields_iff fields).1 hvals _ hv0)

/-- Canonicalization does not introduce new strings, so whitespace-freeness is
preserved. -/
theorem wsFree_canon :
    ∀ v : Json, wsFreeRec v = true → wsFreeRec (canonicalize_value v) = true := by
  refine Json.indOn _ ?_ ?_ ?_ ?_ ?_ ?_
  · intro _; simp [canonicalize_value, wsFreeRec]
  · intro b _; simp [canonicalize_value, wsFreeRec]
  · intro n _; simp [canonicalize_value, wsFreeRec]
  · intro s h; simpa [canonicalize_value] using h
  · intro elems ih hn
    simp only [canonicalize_value, wsFreeRec]
    rw [wsFreeRecList_iff, canonicalize_list_eq_map]
    intro v hv
    rcases List.mem_map.1 hv with ⟨w, hw, rfl⟩
    exact ih w hw ((wsFreeRecList_iff elems).1 (by simpa [wsFreeRec] using hn) w hw)
  · intro fields ih hn
    simp only [canonicalize_value, wsFreeRec]
    rw [wsFreeRecFields_iff]
    intro kv hkv
    have hkv2 : kv ∈ canonicalize_fields fields := (sortPairsByKey_perm _).mem_iff.1 hkv
    rw [canonicalize_fields_eq_map] at hkv2
    rcases List.mem_map.1 hkv2 with ⟨⟨k0, v0⟩, hv0, rfl⟩
    have hn2 := (wsFreeRecFields_iff fields).1 (by simpa [wsFreeRec] using hn) _ hv0
    exact ⟨hn2.1, ih _ hv0 hn2.2⟩

/-! ## The serializer emits no whitespace of its own -/

theorem hexDigit_not_ws (n : Nat) : isJsonWs (hexDigit n) = false := by
  have hall : ∀ x ∈ hexChars, isJsonWs x = false := by decide
  unfold hexDigit
  by_cases h : n < hexChars.length
  · refine hall _ ?_
    rw [List.getD_eq_getElem _ _ h]
    exact List.getElem_mem h
  · have hd : hexChars.getD n '0' = '0' := by
      unfold List.getD
      rw [List.get?_eq_none.mpr (Nat.le_of_not_lt h)]
      rfl
    rw [hd]
    decide

theorem decimalChars_not_ws :
    ∀ (n : Nat) (acc : List Char), (∀ c ∈ acc, isJsonWs c = false) →
      ∀ c ∈ decimalChars n acc, isJsonWs c = false := by
  intro n
  induction n using Nat.strong_induction_on with
  | _ n ih =>
    intro acc hacc c hc
    rw [decimalChars] at hc
    by_cases h : n < 10
    · simp only [h, if_true] at hc
      rcases List.mem_cons.1 hc with rfl | hc2
      · exact hexDigit_not_ws _
      · exact hacc c hc2
    · simp only [h, if_false] at hc
      refine ih (n / 10) (Nat.div_lt_self (by omega) (by omega)) _ ?_ c hc
      intro c0 hc0
      rcases List.mem_cons.1 hc0 with rfl | hc02
      · exact hexDigit_not_ws _
      · exact hacc c0 hc02

theorem escapeChar_not_ws {c0 : Char} (h : isJsonWs c0 = false) :
    ∀ c ∈ escapeChar c0, isJsonWs c = false := by
  intro c hc
  unfold escapeChar at hc
  split_ifs at hc with h1 h2 h3 h4 h5 h6 h7 h8
  all_goals simp only [List.mem_cons, List.mem_singleton, List.not_mem_nil, or_false] at hc
  · rcases hc with rfl | rfl <;> decide
  · rcases hc with rfl | rfl <;> decide
  · rcases hc with rfl | rfl <;> decide
  · rcases hc with rfl | rfl <;> decide
  · exfalso; rw [h5] at h; exact absurd h (by decide)
  · exfalso; rw [h6] at h; exact absurd h (by decide)
  · exfalso; rw [h7] at h; exact absurd h (by decide)
  · rcases hc with rfl | rfl | rfl | rfl | rfl | rfl
    · decide
    · decide
    · decide
    · decide
    · exact hexDigit_not_ws _
    · exact hexDigit_not_ws _
  · rcases hc with rfl
    exact h

theorem foldr_escape_not_ws :
    ∀ (l : List Char) (acc : List Char), (∀ c ∈ l, isJsonWs c = false) →
      (∀ c ∈ acc, isJsonWs c = false) →
      ∀ c ∈ l.foldr (fun c acc => escapeChar c ++ acc) acc, isJsonWs c = false := by
  intro l
  induction l with
  | nil => intro acc _ hacc c hc; exact hacc c hc
  | cons c0 rest ih =>
    intro acc hl hacc c hc
    simp only [List.foldr_cons, List.mem_append] at hc
    rcases hc with hc1 | hc2
    · exact escapeChar_not_ws (hl c0 (by simp)) c hc1
    · exact ih acc (fun x hx => hl x (by simp [hx])) hacc c hc2

theorem quoteString_not_ws {s : String} (h : (s.data.all fun c => !isJsonWs c) = true) :
    ∀ c ∈ (quoteString s).data, isJsonWs c = false := by
  intro c hc
  unfold quoteString at hc
  simp only [List.all_eq_true, Bool.not_eq_true'] at h
  rcases List.mem_cons.1 hc with rfl | hc2
  · decide
  · refine foldr_escape_not_ws s.data ['"'] h ?_ c hc2
    intro c0 hc0
    rcases List.mem_singleton.1 hc0 with rfl
    decide

theorem mem_single_char_data {c d : Char} {s : String} (hs : s.data = [d])
    (hc : c ∈ s.data) : c = d := by
  rw [hs] at hc
  simpa using hc

theorem serialize_not_ws_mutual :
    ∀ v : Json, wsFreeRec v = true → ∀ c ∈ (serializeJson v).data, isJsonWs c = false := by
  have harr : ∀ l : List Json,
      (∀ v ∈ l, wsFreeRec v = true → ∀ c ∈ (serializeJson v).data, isJsonWs c = false) →
      wsFreeRecList l = true → ∀ c ∈ (serializeArr l).data, isJsonWs c = false := by
    intro l
    induction l with
    | nil => intro _ _ c hc; simp [serializeArr] at hc
    | cons v rest ih =>
      intro hmem hws c hc
      cases rest with
      | nil =>
        rw [show serializeArr [v] = serializeJson v from by rw [serializeArr]] at hc
        exact hmem v (by simp) ((wsFreeRecList_iff [v]).1 hws v (by simp)) c hc
      | cons w rest2 =>
        rw [show serializeArr (v :: w :: rest2) =
              serializeJson v ++ "," ++ serializeArr (w :: rest2) from rfl] at hc
        simp only [String.data_append, List.mem_append] at hc
        rcases hc with (hc1 | hc2) | hc3
        · exact hmem v (by simp) ((wsFreeRecList_iff _).1 hws v (by simp)) c hc1
        · obtain rfl := mem_single_char_data rfl hc2

          decide
        · refine ih (fun x hx hwx => hmem x (by simp [hx]) hwx) ?_ c hc3
          rw [wsFreeRecList_iff]
          intro x hx
          exact (wsFreeRecList_iff _).1 hws x (by simp [hx])
  have hobj : ∀ l : List (String × Json),
      (∀ kv ∈ l, wsFreeRec kv.2 = true →
        ∀ c ∈ (serializeJson kv.2).data, isJsonWs c = false) →
      wsFreeRecFields l = true → ∀ c ∈ (serializeObj l).data, isJsonWs c = false := by
    intro l
    induction l with
    | nil => intro _ _ c hc; simp [serializeObj] at hc
    | cons kv rest ih =>
      intro hmem hws c hc
      obtain ⟨k, v⟩ := kv
      have hkv := (wsFreeRecFields_iff _).1 hws (k, v) (by simp)
      cases rest with
      | nil =>
        rw [show serializeObj [(k, v)] = quoteString k ++ ":" ++ serializeJson v from by
            rw [serializeObj]] at hc
        simp only [String.data_append, List.mem_append] at hc
        rcases hc with (hc1 | hc2) | hc3
        · exact quoteString_not_ws hkv.1 c hc1
        · obtain rfl := mem_single_char_data rfl hc2

          decide
        · exact hmem (k, v) (by simp) hkv.2 c hc3
      | cons kw rest2 =>
        rw [show serializeObj ((k, v) :: kw :: rest2) =
              quoteString k ++ ":" ++ serializeJson v ++ "," ++ serializeObj (kw :: rest2)
            from rfl] at hc
        simp only [String.data_append, List.mem_append] at hc
        rcases hc with (((hc1 | hc2) | hc3) | hc4) | hc5
        · exact quoteString_not_ws hkv.1 c hc1
        · obtain rfl := mem_single_char_data rfl hc2

          decide
        · exact hmem (k, v) (by simp) hkv.2 c hc3
        · obtain rfl := mem_single_char_data rfl hc4

          decide
        · refine ih (fun x hx hwx => hmem x (by simp [hx]) hwx) ?_ c hc5
          rw [wsFreeRecFields_iff]
          intro x hx
          exact (wsFreeRecFields_iff _).1 hws x (by simp [hx])
  refine Json.indOn _ ?_ ?_ ?_ ?_ ?_ ?_
  · intro _ c hc
    rw [show serializeJson .null = "null" from by rw [serializeJson]] at hc
    revert hc; revert c; decide
  · intro b _ c hc
    cases b
    · rw [show serializeJson (.bool false) = "false" from by rw [serializeJson]] at hc
      revert hc; revert c; decide
    · rw [show serializeJson (.bool true) = "true" from by rw [serializeJson]] at hc
      revert hc; revert c; decide
  · intro n _ c hc
    rw [show serializeJson (.num n) = ⟨decimalChars n []⟩ from by rw [serializeJson]] at hc
    exact decimalChars_not_ws n [] (by simp) c hc
  · intro s hws c hc
    rw [show serializeJson (.str s) = quoteString s from by rw [serializeJson]] at hc
    exact quoteString_not_ws (by simpa [wsFreeRec] using hws) c hc
  · intro elems ih hws c hc
    rw [show serializeJson (.arr elems) = "[" ++ serializeArr elems ++ "]" from by
        rw [serializeJson]] at hc
    simp only [String.data_append, List.mem_append] at hc
    rcases hc with (hc1 | hc2) | hc3
    · obtain rfl := mem_single_char_data rfl hc1

      decide
    · exact harr elems ih (by simpa [wsFreeRec] using hws) c hc2
    · obtain rfl := mem_single_char_data rfl hc3

      decide
  · intro fields ih hws c hc
    rw [show serializeJson (.obj fields) = "\x7b" ++ serializeObj fields ++ "\x7d" from by
        rw [serializeJson]] at hc
    simp only [String.data_append, List.mem_append] at hc
    rcases hc with (hc1 | hc2) | hc3
    · obtain rfl := mem_single_char_data rfl hc1

      decide
    · exact hobj fields ih (by simpa [wsFreeRec] using hws) c hc2
    · obtain rfl := mem_single_char_data rfl hc3

      decide

/-! ## The scan loop invariants -/

theorem compute_loc_size (c : List Nat) : (compute_loc c.length c).size = c.length := by
  unfold compute_loc
  split_ifs with h1 h2
  · rfl
  · simp [h2]
  · cases utf8Decode c <;> rfl

theorem processOne_files (acc : ScanAcc) (r : RawFile) :
    (processOne acc r).files = acc.files ++ [mkFileNode r] := rfl

theorem scanLoop_files (rs : List RawFile) : ∀ acc : ScanAcc,
    (scanLoop acc rs).files = acc.files ++ rs.map mkFileNode := by
  induction rs with
  | nil => intro acc; simp [scanLoop]
  | cons r rest ih =>
    intro acc
    rw [scanLoop, ih, processOne_files]
    simp

theorem scanLoop_total (rs : List RawFile) : ∀ acc : ScanAcc,
    (scanLoop acc rs).total_size =
      acc.total_size + (rs.map fun r => (compute_loc r.content.length r.content).size).sum := by
  induction rs with
  | nil => intro acc; simp [scanLoop]
  | cons r rest ih =>
    intro acc
    rw [scanLoop, ih]
    show (processOne acc r).total_size + _ = _
    rw [show (processOne acc r).total_size =
          acc.total_size + (compute_loc r.content.length r.content).size from rfl]
    simp [Nat.add_assoc]

theorem scanLoop_module_files (rs : List RawFile) : ∀ acc : ScanAcc,
    (scanLoop acc rs).module_files =
      acc.module_files ++ rs.filterMap fun r =>
        if !(r.path.data.contains '/') && MODULE_FILES_LOOKUP.contains r.path then
          some r.path
        else none := by
  induction rs with
  | nil => intro acc; simp [scanLoop]
  | cons r rest ih =>
    intro acc
    rw [scanLoop, ih]
    show (processOne acc r).module_files ++ _ = _
    rw [show (processOne acc r).module_files =
          if !(r.path.data.contains '/') && MODULE_FILES_LOOKUP.contains r.path then
            acc.module_files ++ [r.path]
          else acc.module_files from rfl]
    rw [List.filterMap_cons]
    by_cases h : (!(r.path.data.contains '/') && MODULE_FILES_LOOKUP.contains r.path) = true
    · rw [if_pos h, if_pos h]
      simp
    · rw [if_neg h, if_neg h]

theorem bumpKey_sum (k : String) (m : List (String × Nat)) :
    sumValues (bumpKey k m) = sumValues m + 1 := by
  induction m with
  | nil => simp [bumpKey, sumValues]
  | cons kv rest ih =>
    obtain ⟨k', v⟩ := kv
    unfold bumpKey
    split_ifs with h1 h2
    · simp [sumValues]; omega
    · simp [sumValues]; omega
    · simp only [sumValues, List.map_cons, List.sum_cons] at ih ⊢
      omega

theorem scanLoop_top_dirs_sum (rs : List RawFile) : ∀ acc : ScanAcc,
    sumValues (scanLoop acc rs).top_dirs = sumValues acc.top_dirs + rs.length := by
  induction rs with
  | nil => intro acc; simp [scanLoop]
  | cons r rest ih =>
    intro acc
    rw [scanLoop, ih]
    show sumValues (bumpKey (topDirOf r.path) acc.top_dirs) + rest.length = _
    rw [bumpKey_sum]
    simp
    omega

theorem scanLoop_languages_sum (rs : List RawFile) : ∀ acc : ScanAcc,
    sumValues (scanLoop acc rs).languages ≤ sumValues acc.languages + rs.length := by
  induction rs with
  | nil => intro acc; simp [scanLoop]
  | cons r rest ih =>
    intro acc
    rw [scanLoop]
    refine (ih (processOne acc r)).trans ?_
    have : sumValues (processOne acc r).languages ≤ sumValues acc.languages + 1 := by
      show sumValues (if detect_language r.path ≠ "Unknown" then
          bumpKey (detect_language r.path) acc.languages else acc.languages) ≤ _
      split_ifs
      · rw [bumpKey_sum]
      · omega
    simp only [List.length_cons]
    omega

/-! ## The pruned walk: path segments, origin entries -/

theorem and_eq_true_elim {a b : Bool} (h : (a && b) = true) : a = true ∧ b = true := by
  rw [Bool.and_eq_true] at h
  exact h

theorem splitOnSlash_ne_nil : ∀ l : List Char, splitOnSlash l ≠ [] := by
  intro l
  cases l with
  | nil => simp [splitOnSlash]
  | cons c rest =>
    rw [splitOnSlash]
    by_cases h : c = '/'
    · simp [h]
    · simp only [h, if_false]
      cases splitOnSlash rest <;> simp

theorem splitOnSlash_append (n : List Char) (p : List Char) (hn : '/' ∉ n) :
    splitOnSlash (n ++ '/' :: p) = n :: splitOnSlash p := by
  induction n with
  | nil => simp [splitOnSlash]
  | cons c cs ih =>
    have hc : c ≠ '/' := fun he => hn (he ▸ List.mem_cons_self c cs)
    have hcs : '/' ∉ cs := fun he => hn (List.mem_cons_of_mem c he)
    rw [List.cons_append, splitOnSlash]
    simp only [hc, if_false]
    rw [ih hcs]

theorem splitOnSlash_no_slash (l : List Char) (hl : '/' ∉ l) : splitOnSlash l = [l] := by
  induction l with
  | nil => simp [splitOnSlash]
  | cons c cs ih =>
    have hc : c ≠ '/' := fun he => hl (he ▸ List.mem_cons_self c cs)
    have hcs : '/' ∉ cs := fun he => hl (List.mem_cons_of_mem c he)
    rw [splitOnSlash]
    simp only [hc, if_false]
    rw [ih hcs]

theorem string_eta (s : String) : (⟨s.data⟩ : String) = s := rfl

theorem pathSegments_no_slash {p : String} (hp : ¬ p.data.contains '/' = true) :
    pathSegments p = [p] := by
  unfold pathSegments
  rw [splitOnSlash_no_slash p.data (by simpa using hp)]
  simp [string_eta]

theorem pathSegments_dir {n p : String} (hn : ¬ n.data.contains '/' = true) :
    pathSegments (n ++ "/" ++ p) = n :: pathSegments p := by
  unfold pathSegments
  have hdata : (n ++ "/" ++ p).data = n.data ++ '/' :: p.data := by
    rw [String.data_append, String.data_append]
    simp
  rw [hdata, splitOnSlash_append n.data p.data (by simpa using hn)]
  simp [string_eta]

theorem entriesOk_cons {e : FsEntry} {rest : List FsEntry}
    (h : entriesOk (e :: rest) = true) : entryOk e = true ∧ entriesOk rest = true := by
  rw [entriesOk] at h
  exact and_eq_true_elim h

theorem treeOk_cons {e : FsEntry} {rest : List FsEntry} (h : treeOk (e :: rest) = true) :
    treeOk rest = true := by
  unfold treeOk at h ⊢
  rcases and_eq_true_elim h with ⟨hn, he⟩
  rw [Bool.and_eq_true]
  refine ⟨?_, (entriesOk_cons he).2⟩
  rw [List.map_cons, nodupStrings] at hn
  exact (and_eq_true_elim hn).2

/-- Every file the walk delivers has well-formed, non-ignored path segments. -/
theorem walk_segments : ∀ es, entriesOk es = true → ∀ r ∈ walkFiles es,
    ∀ s ∈ pathSegments r.path, isIgnoredEntryName s = false ∧ nameOkStr s = true := by
  refine FsEntry.indOn _ ?_ ?_ ?_
  · intro _ r hr
    rw [walkFiles] at hr
    cases hr
  · intro n c hf rest ih hok r hr
    obtain ⟨he, hrest⟩ := entriesOk_cons hok
    rw [walkFiles] at hr
    by_cases hig : isIgnoredEntryName n = true
    · rw [if_pos hig] at hr
      exact ih hrest r hr
    · rw [if_neg hig] at hr
      rcases List.mem_cons.1 hr with rfl | hr2
      · intro s hs
        have hnok : nameOkStr n = true := by
          rw [entryOk] at he
          exact he
        have hnoslash : ¬ n.data.contains '/' = true := by
          unfold nameOkStr at hnok
          rcases and_eq_true_elim hnok with ⟨_, h2⟩
          simp only [Bool.not_eq_true'] at h2
          rw [h2]
          simp
        rw [show (⟨n, c, hf⟩ : RawFile).path = n from rfl] at hs
        rw [pathSegments_no_slash hnoslash] at hs
        rcases List.mem_singleton.1 hs with rfl
        exact ⟨by simpa using hig, hnok⟩
      · exact ih hrest r hr2
  · intro n es rest ihes ihrest hok r hr
    obtain ⟨he, hrest⟩ := entriesOk_cons hok
    rw [walkFiles] at hr
    rcases List.mem_append.1 hr with hr1 | hr2
    · by_cases hig : isIgnoredEntryName n = true
      · rw [if_pos hig] at hr1
        cases hr1
      · rw [if_neg hig] at hr1
        rcases List.mem_map.1 hr1 with ⟨r0, hr0, rfl⟩
        rw [entryOk] at he
        rcases and_eq_true_elim he with ⟨hpair, hesok⟩
        rcases and_eq_true_elim hpair with ⟨hnok, _⟩
        have hnoslash : ¬ n.data.contains '/' = true := by
          unfold nameOkStr at hnok
          rcases and_eq_true_elim hnok with ⟨_, h2⟩
          simp only [Bool.not_eq_true'] at h2
          rw [h2]
          simp
        intro s hs
        rw [show ((⟨n ++ "/" ++ r0.path, r0.content, r0.hashFail⟩ : RawFile)).path =
              n ++ "/" ++ r0.path from rfl] at hs
        rw [pathSegments_dir hnoslash] at hs
        rcases List.mem_cons.1 hs with rfl | hs2
        · exact ⟨by simpa using hig, hnok⟩
        · exact ihes hesok r0 hr0 s hs2
    · exact ihrest hrest r hr2

/-- Every file the walk delivers starts with the name of a surviving entry of
the top-level list. -/
theorem walk_head_name : ∀ es, entriesOk es = true → ∀ r ∈ walkFiles es,
    ∃ e ∈ es, isIgnoredEntryName e.nameOf = false ∧
      (pathSegments r.path).head? = some e.nameOf := by
  refine FsEntry.indOn _ ?_ ?_ ?_
  · intro _ r hr
    rw [walkFiles] at hr
    cases hr
  · intro n c hf rest ih hok r hr
    obtain ⟨he, hrest⟩ := entriesOk_cons hok
    rw [walkFiles] at hr
    by_cases hig : isIgnoredEntryName n = true
    · rw [if_pos hig] at hr
      rcases ih hrest r hr with ⟨e, he2, h3, h4⟩
      exact ⟨e, List.mem_cons_of_mem _ he2, h3, h4⟩
    · rw [if_neg hig] at hr
      rcases List.mem_cons.1 hr with rfl | hr2
      · refine ⟨.file n c hf, List.mem_cons_self _ _, by simpa using hig, ?_⟩
        have hnok : nameOkStr n = true := by rw [entryOk] at he; exact he
        have hnoslash : ¬ n.data.contains '/' = true := by
          unfold nameOkStr at hnok
          rcases and_eq_true_elim hnok with ⟨_, h2⟩
          simp only [Bool.not_eq_true'] at h2
          rw [h2]
          simp
        rw [show (⟨n, c, hf⟩ : RawFile).path = n from rfl,
          pathSegments_no_slash hnoslash]
        rfl
      · rcases ih hrest r hr2 with ⟨e, he2, h3, h4⟩
        exact ⟨e, List.mem_cons_of_mem _ he2, h3, h4⟩
  · intro n es rest ihes ihrest hok r hr
    obtain ⟨he, hrest⟩ := entriesOk_cons hok
    rw [walkFiles] at hr
    rcases List.mem_append.1 hr with hr1 | hr2
    · by_cases hig : isIgnoredEntryName n = true
      · rw [if_pos hig] at hr1
        cases hr1
      · rw [if_neg hig] at hr1
        rcases List.mem_map.1 hr1 with ⟨r0, hr0, rfl⟩
        refine ⟨.dir n es, List.mem_cons_self _ _, by simpa using hig, ?_⟩
        rw [entryOk] at he
        rcases and_eq_true_elim he with ⟨hpair, _⟩
        rcases and_eq_true_elim hpair with ⟨hnok, _⟩
        have hnoslash : ¬ n.data.contains '/' = true := by
          unfold nameOkStr at hnok
          rcases and_eq_true_elim hnok with ⟨_, h2⟩
          simp only [Bool.not_eq_true'] at h2
          rw [h2]
          simp
        rw [show ((⟨n ++ "/" ++ r0.path, r0.content, r0.hashFail⟩ : RawFile)).path =
              n ++ "/" ++ r0.path from rfl, pathSegments_dir hnoslash]
        rfl
    · rcases ihrest hrest r hr2 with ⟨e, he2, h3, h4⟩
      exact ⟨e, List.mem_cons_of_mem _ he2, h3, h4⟩

theorem nameOk_no_slash {n : String} (h : nameOkStr n = true) :
    ¬ n.data.contains '/' = true := by
  unfold nameOkStr at h
  rcases and_eq_true_elim h with ⟨_, h2⟩
  simp only [Bool.not_eq_true'] at h2
  rw [h2]
  simp

theorem append_dir_inj {n : String} : Function.Injective fun p => n ++ "/" ++ p := by
  intro p1 p2 h
  have hd := congrArg String.data h
  simp only [String.data_append] at hd
  exact str_eq_of_data_eq (List.append_cancel_left hd)

theorem treeOk_of_dir {n : String} {es : List FsEntry} (h : entryOk (.dir n es) = true) :
    treeOk es = true := by
  rw [entryOk] at h
  rcases and_eq_true_elim h with ⟨hpair, hes⟩
  rcases and_eq_true_elim hpair with ⟨_, hnd⟩
  unfold treeOk
  rw [Bool.and_eq_true]
  exact ⟨hnd, hes⟩

theorem nodupStrings_head_notin {n : String} {names : List String}
    (h : nodupStrings (n :: names) = true) : n ∉ names := by
  rw [nodupStrings] at h
  rcases and_eq_true_elim h with ⟨hnotin, _⟩
  simp only [Bool.not_eq_true'] at hnotin
  intro hm
  have hc : names.contains n = true := by simpa using hm
  rw [hnotin] at hc
  cases hc

/-- The names of the top-level entries of a well-formed list are
pairwise-distinct; the head name of every walked file identifies its origin
entry, so the walked paths are pairwise-distinct. -/
theorem walk_paths_nodup : ∀ es, treeOk es = true → ((walkFiles es).map (·.path)).Nodup := by
  refine FsEntry.indOn _ ?_ ?_ ?_
  · intro _
    rw [walkFiles]
    simp
  · intro n c hf rest ih hok
    have hrest := treeOk_cons hok
    unfold treeOk at hok
    rcases and_eq_true_elim hok with ⟨hnames, hentries⟩
    rcases entriesOk_cons hentries with ⟨he, hrest2⟩
    rw [List.map_cons] at hnames
    simp only [FsEntry.nameOf] at hnames
    have hnotin : n ∉ rest.map FsEntry.nameOf := nodupStrings_head_notin hnames
    rw [walkFiles]
    by_cases hig : isIgnoredEntryName n = true
    · rw [if_pos hig]
      exact ih hrest
    · rw [if_neg hig, List.map_cons]
      refine List.nodup_cons.2 ⟨?_, ih hrest⟩
      intro hmem
      rcases List.mem_map.1 hmem with ⟨r, hr, hpath⟩
      rcases walk_head_name rest hrest2 r hr with ⟨e, he2, _, hhead⟩
      have hnok : nameOkStr n = true := by rw [entryOk] at he; exact he
      have hpn : r.path = n := hpath
      rw [hpn, pathSegments_no_slash (nameOk_no_slash hnok)] at hhead
      have hne : n = e.nameOf := by simpa using hhead
      exact hnotin (hne ▸ List.mem_map_of_mem _ he2)
  · intro n es rest ihes ihrest hok
    have hrest := treeOk_cons hok
    unfold treeOk at hok
    rcases and_eq_true_elim hok with ⟨hnames, hentries⟩
    rcases entriesOk_cons hentries with ⟨he, hrest2⟩
    rw [List.map_cons] at hnames
    simp only [FsEntry.nameOf] at hnames
    have hnotin : n ∉ rest.map FsEntry.nameOf := nodupStrings_head_notin hnames
    rw [walkFiles, List.map_append]
    by_cases hig : isIgnoredEntryName n = true
    · rw [if_pos hig]
      simpa using ihrest hrest
    · rw [if_neg hig]
      have hnok : nameOkStr n = true := by
        rw [entryOk] at he
        exact (and_eq_true_elim (and_eq_true_elim he).1).1
      refine List.Nodup.append ?_ (ihrest hrest) ?_
      · rw [List.map_map]
        have heq : ((fun x : RawFile => x.path) ∘ fun r : RawFile =>
            (⟨n ++ "/" ++ r.path, r.content, r.hashFail⟩ : RawFile)) =
            (fun p => n ++ "/" ++ p) ∘ (fun x : RawFile => x.path) := rfl
        rw [heq, ← List.map_map]
        exact (ihes (treeOk_of_dir he)).map append_dir_inj
      · intro p hp1 hp2
        rcases List.mem_map.1 hp1 with ⟨r1, hr1, hpeq⟩
        rcases List.mem_map.1 hr1 with ⟨r0, _, rfl⟩
        rcases List.mem_map.1 hp2 with ⟨r2, hr2, hpeq2⟩
        rcases walk_head_name rest hrest2 r2 hr2 with ⟨e, he2, _, hhead⟩
        have hp2n : r2.path = p := hpeq2
        have hp1n : n ++ "/" ++ r0.path = p := hpeq
        rw [hp2n, ← hp1n, pathSegments_dir (nameOk_no_slash hnok)] at hhead
        have hne : n = e.nameOf := by simpa using hhead
        exact hnotin (hne ▸ List.mem_map_of_mem _ he2)

/-! ## scan_target characterizations -/

theorem scan_target_files (es : List FsEntry) :
    (scan_target es).files = sortFilesByPath ((walkFiles es).map mkFileNode) := by
  unfold scan_target
  simp only [scanLoop_files, List.nil_append]

theorem scan_target_file_count (es : List FsEntry) :
    (scan_target es).stats.file_count = (scan_target es).files.length := rfl

theorem scan_target_total_size (es : List FsEntry) :
    (scan_target es).stats.total_size =
      ((walkFiles es).map fun r => (compute_loc r.content.length r.content).size).sum := by
  unfold scan_target
  simp only [scanLoop_total]
  omega

theorem scan_target_module_files (es : List FsEntry) :
    (scan_target es).module_files =
      sortStrings ((if es.any (fun e => e.nameOf = ".git") then [".git"] else []) ++
        (walkFiles es).filterMap fun r =>
          if !(r.path.data.contains '/') && MODULE_FILES_LOOKUP.contains r.path then
            some r.path
          else none) := by
  unfold scan_target
  simp only [scanLoop_module_files]

theorem scan_target_top_dirs_sum (es : List FsEntry) :
    sumValues (scan_target es).top_dirs = (walkFiles es).length := by
  unfold scan_target
  simp only [scanLoop_top_dirs_sum]
  simp [sumValues]

theorem scan_target_languages_sum (es : List FsEntry) :
    sumValues (scan_target es).languages ≤ (walkFiles es).length := by
  unfold scan_target
  have h := scanLoop_languages_sum (walkFiles es)
    ⟨[], 0, [], [],
      if es.any (fun e => e.nameOf = ".git") then [".git"] else []⟩
  simpa [sumValues] using h

theorem mkFileNode_path (r : RawFile) : (mkFileNode r).path = r.path := rfl

theorem scan_target_files_length (es : List FsEntry) :
    (scan_target es).files.length = (walkFiles es).length := by
  rw [scan_target_files]
  rw [(sortFilesByPath_perm _).length_eq]
  simp

theorem scan_paths_eq (es : List FsEntry) :
    ((walkFiles es).map mkFileNode).map (·.path) = (walkFiles es).map (·.path) := by
  rw [List.map_map]
  rfl

/-- The filterMap that collects module files is a filtered projection of the
walked paths. -/
theorem pushes_eq_filter (rs : List RawFile) :
    (rs.filterMap fun r =>
      if !(r.path.data.contains '/') && MODULE_FILES_LOOKUP.contains r.path then
        some r.path
      else none) =
    ((rs.filter fun r =>
      !(r.path.data.contains '/') && MODULE_FILES_LOOKUP.contains r.path).map (·.path)) := by
  induction rs with
  | nil => simp
  | cons r rest ih =>
    rw [List.filterMap_cons, List.filter_cons]
    by_cases h : (!(r.path.data.contains '/') && MODULE_FILES_LOOKUP.contains r.path) = true
    · rw [if_pos h, if_pos h, List.map_cons, ih]
    · rw [if_neg h, if_neg h, ih]

theorem treeOk_entriesOk {es : List FsEntry} (h : treeOk es = true) : entriesOk es = true := by
  unfold treeOk at h
  exact (and_eq_true_elim h).2

theorem scan_module_files_strict (es : List FsEntry) (h : treeOk es = true) :
    strictlySortedStrings (scan_target es).module_files = true := by
  rw [scan_target_module_files]
  apply sortStrings_strict
  have hpnodup : ((walkFiles es).filterMap fun r =>
      if !(r.path.data.contains '/') && MODULE_FILES_LOOKUP.contains r.path then
        some r.path
      else none).Nodup := by
    rw [pushes_eq_filter]
    exact (walk_paths_nodup es h).sublist
      (List.Sublist.map (fun r : RawFile => r.path) (List.filter_sublist _))
  have hgit : ".git" ∉ (walkFiles es).filterMap fun r =>
      if !(r.path.data.contains '/') && MODULE_FILES_LOOKUP.contains r.path then
        some r.path
      else none := by
    rw [pushes_eq_filter]
    intro hmem
    rcases List.mem_map.1 hmem with ⟨r, hrf, hpath⟩
    rcases List.mem_filter.1 hrf with ⟨hr, _⟩
    rcases walk_head_name es (treeOk_entriesOk h) r hr with ⟨e, _, hige, hhead⟩
    have hpg : r.path = ".git" := hpath
    rw [hpg, pathSegments_no_slash (by decide)] at hhead
    have : (".git" : String) = e.nameOf := by simpa using hhead
    rw [← this] at hige
    exact absurd hige (by decide)
  by_cases hany : es.any (fun e => e.nameOf = ".git") = true
  · rw [if_pos hany]
    exact List.nodup_cons.2 ⟨hgit, hpnodup⟩
  · rw [if_neg hany]
    simpa using hpnodup

theorem scan_files_pairwise (es : List FsEntry) (h : treeOk es = true) :
    List.Pairwise (fun a b : FileNode => strLt a.path b.path = true) (scan_target es).files := by
  rw [scan_target_files]
  have hsorted := sortFilesByPath_sorted ((walkFiles es).map mkFileNode)
  have hnd : ((sortFilesByPath ((walkFiles es).map mkFileNode)).map (·.path)).Nodup := by
    refine ((sortFilesByPath_perm _).map (·.path)).nodup_iff.2 ?_
    rw [scan_paths_eq]
    exact walk_paths_nodup es h
  have hpw : List.Pairwise (fun a b : FileNode => a.path ≠ b.path)
      (sortFilesByPath ((walkFiles es).map mkFileNode)) := List.pairwise_map.1 hnd
  exact (hsorted.and hpw).imp fun hab => strLt_of_le_of_ne hab.1 hab.2

/-- C3: files under an ignored directory name, at any depth, never appear in
`scan_target`'s `files` output.  `treeOk` is the filesystem's own guarantee
that entry names are non-empty and free of the path separator, with siblings
pairwise distinct. -/
theorem C3_ignored_never_listed (es : List FsEntry) (h : treeOk es = true) :
    ∀ node ∈ (scan_target es).files, ∀ s ∈ pathSegments node.path,
      isIgnoredEntryName s = false := by
  intro node hnode s hs
  rw [scan_target_files] at hnode
  have hnode2 : node ∈ (walkFiles es).map mkFileNode := (sortFilesByPath_perm _).mem_iff.1 hnode
  rcases List.mem_map.1 hnode2 with ⟨r, hr, rfl⟩
  rw [mkFileNode_path] at hs
  exact (walk_segments es (treeOk_entriesOk h) r hr s hs).1

/-- C4: the files of a scan are strictly ascending by path (hence duplicate
free), the module files are strictly ascending (hence duplicate free), and
`validate_sort_order` accepts the assembled index. -/
theorem C4_sort_invariants (es : List FsEntry) (root target : String)
    (h : treeOk es = true) :
    List.Pairwise (fun a b : FileNode => strLt a.path b.path = true) (scan_target es).files ∧
    List.Pairwise (fun a b : String => strLt a b = true) (scan_target es).module_files ∧
    validate_sort_order (build_index root target (scan_target es)) = true := by
  refine ⟨scan_files_pairwise es h,
    (strictlySortedStrings_iff _).1 (scan_module_files_strict es h), ?_⟩
  unfold validate_sort_order build_index
  rw [Bool.and_eq_true]
  constructor
  · rw [strictlySortedStrings_iff]
    exact List.pairwise_map.2 (scan_files_pairwise es h)
  · exact scan_module_files_strict es h

/-- C7: `total_size` sums every file record's size (skipped files included),
`file_count` is the length of `files`, and the per-language counts sum to at
most the number of files because `"Unknown"` files are not aggregated. -/
theorem C7_aggregate_totals (es : List FsEntry) :
    (scan_target es).stats.total_size = (((scan_target es).files.map (·.size)).sum) ∧
    (scan_target es).stats.file_count = (scan_target es).files.length ∧
    sumValues (scan_target es).languages ≤ (scan_target es).files.length := by
  refine ⟨?_, scan_target_file_count es, ?_⟩
  · rw [scan_target_total_size, scan_target_files]
    have hperm : ((sortFilesByPath ((walkFiles es).map mkFileNode)).map (·.size)).Perm
        (((walkFiles es).map mkFileNode).map (·.size)) :=
      (sortFilesByPath_perm _).map (·.size)
    rw [hperm.sum_eq, List.map_map]
    rfl
  · rw [scan_target_files_length]
    exact scan_target_languages_sum es

/-- C10: every tracked file is counted in exactly one top-level-directory
bucket, so the bucket counts sum to `file_count`, which is the length of
`files`. -/
theorem C10_top_dirs_partition (es : List FsEntry) :
    sumValues (scan_target es).top_dirs = (scan_target es).stats.file_count ∧
    (scan_target es).stats.file_count = (scan_target es).files.length := by
  refine ⟨?_, scan_target_file_count es⟩
  rw [scan_target_top_dirs_sum, scan_target_file_count, scan_target_files_length]

/-- C9: a surviving file at the scan root whose name is one of the recognized
manifest names is recorded in `module_files`, and a root `.git` entry is
special-cased into `module_files` even though the walk prunes it. -/
theorem C9_module_file_detection (es : List FsEntry) (r : RawFile)
    (hr : r ∈ walkFiles es)
    (h1 : ¬ r.path.data.contains '/' = true)
    (h2 : r.path ∈ (["go.mod", "Cargo.toml", "package.json", "Makefile",
      "Dockerfile"] : List String)) :
    r.path ∈ (scan_target es).module_files ∧
    ∀ es2 : List FsEntry, (∃ e ∈ es2, e.nameOf = ".git") →
      ".git" ∈ (scan_target es2).module_files := by
  constructor
  · rw [scan_target_module_files]
    refine (sortStrings_perm _).mem_iff.2 (List.mem_append.2 (Or.inr ?_))
    have hcf : r.path.data.contains '/' = false := by
      cases hx : r.path.data.contains '/'
      · rfl
      · exact absurd hx h1
    have hlk : MODULE_FILES_LOOKUP.contains r.path = true := by
      simp only [List.mem_cons, List.mem_singleton, List.not_mem_nil, or_false] at h2
      rcases h2 with h | h | h | h | h <;> rw [h] <;> decide
    refine List.mem_filterMap.2 ⟨r, hr, ?_⟩
    have hcond : (!(r.path.data.contains '/') && MODULE_FILES_LOOKUP.contains r.path) = true := by
      rw [Bool.and_eq_true]
      exact ⟨by rw [hcf]; rfl, hlk⟩
    rw [if_pos hcond]
  · intro es2 ⟨e, he, hname⟩
    rw [scan_target_module_files]
    refine (sortStrings_perm _).mem_iff.2 (List.mem_append.2 (Or.inl ?_))
    have hany : es2.any (fun e => e.nameOf = ".git") = true :=
      List.any_eq_true.2 ⟨e, he, by simp [hname]⟩
    rw [if_pos hany]
    simp

/-! ## C8 helpers -/

theorem sha256_length (msg : List Nat) : (sha256 msg).length = 32 := by
  unfold sha256 wordBytes
  simp

theorem hexDigit_mem (n : Nat) : hexDigit n ∈ hexChars := by
  unfold hexDigit
  by_cases h : n < hexChars.length
  · rw [List.getD_eq_getElem _ _ h]
    exact List.getElem_mem h
  · have hd : hexChars.getD n '0' = '0' := by
      unfold List.getD
      rw [List.get?_eq_none.mpr (Nat.le_of_not_lt h)]
      rfl
    rw [hd]
    decide

theorem hexEncode_data (bytes : List Nat) :
    (hexEncode bytes).data =
      bytes.foldr (fun b acc => hexDigit (b / 16) :: hexDigit (b % 16) :: acc) [] := rfl

theorem hexEncode_length (bytes : List Nat) : (hexEncode bytes).length = 2 * bytes.length := by
  show (hexEncode bytes).data.length = 2 * bytes.length
  rw [hexEncode_data]
  induction bytes with
  | nil => rfl
  | cons b rest ih =>
    rw [List.foldr_cons, List.length_cons, List.length_cons, ih]
    simp
    omega

theorem hexEncode_chars (bytes : List Nat) :
    ∀ c ∈ (hexEncode bytes).data, c ∈ hexChars := by
  rw [hexEncode_data]
  induction bytes with
  | nil => intro c hc; cases hc
  | cons b rest ih =>
    intro c hc
    rw [List.foldr_cons] at hc
    rcases List.mem_cons.1 hc with rfl | hc2
    · exact hexDigit_mem _
    · rcases List.mem_cons.1 hc2 with rfl | hc3
      · exact hexDigit_mem _
      · exact ih c hc3

/-- C8: `compute_file_hash` yields `"sha256:"` followed by the 64 lowercase
hex characters of the SHA-256 digest of the content, or an error; and a
hashing failure still leaves the file's record in the scan output, with an
empty hash string. -/
theorem C8_hash_format_and_soft_failure :
    (∀ bytes : List Nat,
      compute_file_hash (some bytes) = .ok ("sha256:" ++ hexEncode (sha256 bytes)) ∧
      (hexEncode (sha256 bytes)).length = 64 ∧
      ∀ c ∈ (hexEncode (sha256 bytes)).data, c ∈ hexChars) ∧
    compute_file_hash none = .error "Failed to open file for hashing" ∧
    (∀ (es : List FsEntry) (r : RawFile), r ∈ walkFiles es → r.hashFail = true →
      ∃ node ∈ (scan_target es).files, node.path = r.path ∧ node.hash = "") := by
  refine ⟨?_, rfl, ?_⟩
  · intro bytes
    refine ⟨rfl, ?_, hexEncode_chars _⟩
    rw [hexEncode_length, sha256_length]
  · intro es r hr hf
    refine ⟨mkFileNode r, ?_, rfl, ?_⟩
    · rw [scan_target_files]
      exact (sortFilesByPath_perm _).mem_iff.2 (List.mem_map_of_mem mkFileNode hr)
    · show hashOrEmpty r = ""
      unfold hashOrEmpty
      rw [hf]
      rfl

/-- C5: the 2 MiB size cap is strict (a file exactly at the cap proceeds to
the UTF-8 check), non-UTF-8 content is reported skipped with its size, and a
zero-byte file is not skipped. -/
theorem C5_size_cap_and_utf8 (size : Nat) (content : List Nat) :
    (size > LOC_BIG_FILE_CAP_BYTES → compute_loc size content = ⟨0, size, true⟩) ∧
    (size = LOC_BIG_FILE_CAP_BYTES →
      ((compute_loc size content).skipped = true ↔ utf8Decode content = none)) ∧
    (utf8Decode content = none → 0 < size → size ≤ LOC_BIG_FILE_CAP_BYTES →
      compute_loc size content = ⟨0, size, true⟩) ∧
    (size = 0 → compute_loc size content = ⟨0, 0, false⟩) := by
  refine ⟨?_, ?_, ?_, ?_⟩
  · intro h
    unfold compute_loc
    rw [if_pos h]
  · intro h
    unfold compute_loc
    rw [if_neg (by omega), if_neg (by rw [h]; unfold LOC_BIG_FILE_CAP_BYTES; omega)]
    cases hu : utf8Decode content with
    | some text => simp
    | none => simp
  · intro hu h1 h2
    unfold compute_loc
    rw [if_neg (by omega), if_neg (by omega), hu]
  · intro h
    unfold compute_loc
    rw [if_neg (by omega), if_pos h]

/-- C6: for readable UTF-8 content within the cap the file is not skipped and
the line count follows `str::lines` semantics: a final unterminated line
counts, and `\r\n` is tolerated. -/
theorem C6_line_count (size : Nat) (content : List Nat) (text : List Nat) :
    (utf8Decode content = some text → 0 < size → size ≤ LOC_BIG_FILE_CAP_BYTES →
      compute_loc size content = ⟨(rustLines text).length, size, false⟩) ∧
    compute_loc 0 [] = ⟨0, 0, false⟩ ∧
    compute_loc 1 [97] = ⟨1, 1, false⟩ ∧
    compute_loc 2 [97, 10] = ⟨1, 2, false⟩ ∧
    compute_loc 3 [97, 10, 98] = ⟨2, 3, false⟩ ∧
    compute_loc 4 [97, 13, 10, 98] = ⟨2, 4, false⟩ := by
  refine ⟨?_, by decide, by decide, by decide, by decide, by decide⟩
  intro hu h1 h2
  unfold compute_loc
  rw [if_neg (by omega), if_neg (by omega), hu]

/-- C2: the digest calculator re-sorts `files` (by path) and `module_files`
and blanks the digest field before hashing, so for an index whose sorted form
has duplicate-free paths the digest is independent of the order in which
`files` and `module_files` are supplied, and of the incoming digest field. -/
theorem C2_digest_input_order (idx : XrayIndex) (files2 : List FileNode)
    (mods2 : List String) (d : String)
    (hv : validate_sort_order idx = true)
    (hpf : files2.Perm idx.files) (hpm : mods2.Perm idx.module_files) :
    calculate_digest { idx with files := files2, module_files := mods2, digest := d } =
      calculate_digest idx := by
  have hpaths : List.Pairwise (fun a b : String => strLt a b = true)
      (idx.files.map (·.path)) := by
    unfold validate_sort_order at hv
    exact (strictlySortedStrings_iff _).1 (and_eq_true_elim hv).1
  have hnd : (idx.files.map (·.path)).Nodup := hpaths.imp fun hab => strLt_ne hab
  have hnd2 : (files2.map (·.path)).Nodup := (hpf.map (·.path)).nodup_iff.2 hnd
  have hfiles : sortFilesByPath files2 = sortFilesByPath idx.files :=
    sortFilesByPath_eq_of_perm hpf hnd2
  have hmods : sortStrings mods2 = sortStrings idx.module_files := sortStrings_eq_of_perm hpm
  have hnorm :
      ({ schema_version := idx.schema_version, root := idx.root, target := idx.target,
         files := sortFilesByPath files2, languages := idx.languages,
         top_dirs := idx.top_dirs, module_files := sortStrings mods2,
         stats := idx.stats, digest := "" } : XrayIndex) =
      { schema_version := idx.schema_version, root := idx.root, target := idx.target,
        files := sortFilesByPath idx.files, languages := idx.languages,
        top_dirs := idx.top_dirs, module_files := sortStrings idx.module_files,
        stats := idx.stats, digest := "" } := by
    rw [hfiles, hmods]
  exact congrArg (fun j => hexEncode (sha256 (strUtf8Bytes (to_canonical_json j)))) hnorm

/-- C1: the canonical serializer is key-order independent (byte-identical
output for key-permuted values), its output has every object's keys strictly
sorted recursively, and it emits no whitespace of its own. -/
theorem C1_canonical_serializer (a b : Json) (h : JEquiv a b) :
    serializeJson (canonicalize_value a) = serializeJson (canonicalize_value b) ∧
    keysSortedRec (canonicalize_value a) = true ∧
    (wsFreeRec a = true →
      ∀ c ∈ (serializeJson (canonicalize_value a)).data, isJsonWs c = false) :=
  ⟨congrArg serializeJson (jequiv_canon_eq h),
   canon_keysSorted a (jequiv_nodupKeys h),
   fun hws => serialize_not_ws_mutual _ (wsFree_canon a hws)⟩

/-! ## Witnesses -/

theorem C1_canonical_serializer_witness :
    serializeJson (canonicalize_value (.obj [("b", .num 1), ("a", .str "x")])) =
      serializeJson (canonicalize_value (.obj [("a", .str "x"), ("b", .num 1)])) ∧
    keysSortedRec (canonicalize_value (.obj [("b", .num 1), ("a", .str "x")])) = true ∧
    (∀ c ∈ (serializeJson (canonicalize_value (.obj [("b", .num 1), ("a", .str "x")]))).data,
      isJsonWs c = false) := by
  have hE : JEquiv (.obj [("b", .num 1), ("a", .str "x")])
      (.obj [("a", .str "x"), ("b", .num 1)]) :=
    JEquiv.obj (by decide) (List.Perm.swap _ _ _)
      (JEquivFields.cons (JEquiv.str "x") (JEquivFields.cons (JEquiv.num 1) JEquivFields.nil))
  have h := C1_canonical_serializer _ _ hE
  refine ⟨h.1, h.2.1, h.2.2 ?_⟩
  rw [show wsFreeRec (.obj [("b", .num 1), ("a", .str "x")]) =
      wsFreeRecFields [("b", .num 1), ("a", .str "x")] from by rw [wsFreeRec]]
  rw [wsFreeRecFields, wsFreeRecFields, wsFreeRecFields]
  rw [show wsFreeRec (.num 1) = true from by simp [wsFreeRec]]
  rw [show wsFreeRec (.str "x") = ("x".data.all fun c => !isJsonWs c) from by rw [wsFreeRec]]
  decide

theorem C2_digest_input_order_witness :
    calculate_digest
      { schema_version := "1.0.0", root := "r", target := ".",
        files := [⟨"b", 1, "", "Unknown", 0, 0⟩, ⟨"a", 1, "", "Unknown", 0, 0⟩],
        languages := [], top_dirs := [], module_files := ["n", "m"],
        stats := ⟨2, 2⟩, digest := "x" } =
    calculate_digest
      { schema_version := "1.0.0", root := "r", target := ".",
        files := [⟨"a", 1, "", "Unknown", 0, 0⟩, ⟨"b", 1, "", "Unknown", 0, 0⟩],
        languages := [], top_dirs := [], module_files := ["m", "n"],
        stats := ⟨2, 2⟩, digest := "" } := by
  exact C2_digest_input_order
    { schema_version := "1.0.0", root := "r", target := ".",
      files := [⟨"a", 1, "", "Unknown", 0, 0⟩, ⟨"b", 1, "", "Unknown", 0, 0⟩],
      languages := [], top_dirs := [], module_files := ["m", "n"],
      stats := ⟨2, 2⟩, digest := "" }
    [⟨"b", 1, "", "Unknown", 0, 0⟩, ⟨"a", 1, "", "Unknown", 0, 0⟩]
    ["n", "m"] "x" (by decide) (by decide) (by decide)

theorem C3_ignored_never_listed_witness :
    treeOk [.dir "vendor" [.file "ignored.txt" [97] false],
      .file "main.go" [97] false] = true ∧
    (∀ node ∈ (scan_target [.dir "vendor" [.file "ignored.txt" [97] false],
        .file "main.go" [97] false]).files,
      ∀ s ∈ pathSegments node.path, isIgnoredEntryName s = false) := by
  have hok : treeOk [.dir "vendor" [.file "ignored.txt" [97] false],
      .file "main.go" [97] false] = true := by
    rw [treeOk]
    rw [entriesOk, entriesOk, entriesOk]
    rw [show entryOk (.dir "vendor" [.file "ignored.txt" [97] false]) =
        (nameOkStr "vendor" && nodupStrings ([FsEntry.file "ignored.txt" [97] false].map
          FsEntry.nameOf) && entriesOk [.file "ignored.txt" [97] false]) from by rw [entryOk]]
    rw [entriesOk, entriesOk]
    rw [show entryOk (.file "ignored.txt" [97] false) = nameOkStr "ignored.txt" from by
      rw [entryOk]]
    rw [show entryOk (.file "main.go" [97] false) = nameOkStr "main.go" from by rw [entryOk]]
    decide
  exact ⟨hok, C3_ignored_never_listed _ hok⟩

theorem C4_sort_invariants_witness :
    treeOk [.dir "vendor" [.file "ignored.txt" [97] false],
      .file "main.go" [97] false] = true ∧
    (List.Pairwise (fun a b : FileNode => strLt a.path b.path = true)
      (scan_target [.dir "vendor" [.file "ignored.txt" [97] false],
        .file "main.go" [97] false]).files ∧
    List.Pairwise (fun a b : String => strLt a b = true)
      (scan_target [.dir "vendor" [.file "ignored.txt" [97] false],
        .file "main.go" [97] false]).module_files ∧
    validate_sort_order (build_index "r" "."
      (scan_target [.dir "vendor" [.file "ignored.txt" [97] false],
        .file "main.go" [97] false])) = true) := by
  have hok : treeOk [.dir "vendor" [.file "ignored.txt" [97] false],
      .file "main.go" [97] false] = true := by
    rw [treeOk]
    rw [entriesOk, entriesOk, entriesOk]
    rw [show entryOk (.dir "vendor" [.file "ignored.txt" [97] false]) =
        (nameOkStr "vendor" && nodupStrings ([FsEntry.file "ignored.txt" [97] false].map
          FsEntry.nameOf) && entriesOk [.file "ignored.txt" [97] false]) from by rw [entryOk]]
    rw [entriesOk, entriesOk]
    rw [show entryOk (.file "ignored.txt" [97] false) = nameOkStr "ignored.txt" from by
      rw [entryOk]]
    rw [show entryOk (.file "main.go" [97] false) = nameOkStr "main.go" from by rw [entryOk]]
    decide
  exact ⟨hok, C4_sort_invariants _ "r" "." hok⟩

theorem C5_size_cap_and_utf8_witness :
    compute_loc (LOC_BIG_FILE_CAP_BYTES + 1) [] = ⟨0, LOC_BIG_FILE_CAP_BYTES + 1, true⟩ ∧
    ((compute_loc LOC_BIG_FILE_CAP_BYTES [255]).skipped = true ↔ utf8Decode [255] = none) ∧
    compute_loc 3 [255, 254, 253] = ⟨0, 3, true⟩ ∧
    compute_loc 0 [] = ⟨0, 0, false⟩ :=
  ⟨(C5_size_cap_and_utf8 _ []).1 (Nat.lt_succ_self _),
   (C5_size_cap_and_utf8 _ [255]).2.1 rfl,
   (C5_size_cap_and_utf8 3 [255, 254, 253]).2.2.1 rfl (by decide) (by decide),
   (C5_size_cap_and_utf8 0 []).2.2.2 rfl⟩

theorem C6_line_count_witness :
    compute_loc 1 [97] = ⟨(rustLines [97]).length, 1, false⟩ ∧
    compute_loc 4 [97, 13, 10, 98] = ⟨(rustLines [97, 13, 10, 98]).length, 4, false⟩ :=
  ⟨(C6_line_count 1 [97] [97]).1 rfl (by decide) (by decide),
   (C6_line_count 4 [97, 13, 10, 98] [97, 13, 10, 98]).1 rfl (by decide) (by decide)⟩

theorem C8_hash_format_witness :
    ∃ node ∈ (scan_target [.file "x.go" [1, 2] true]).files,
      node.path = "x.go" ∧ node.hash = "" := by
  have hr : (⟨"x.go", [1, 2], true⟩ : RawFile) ∈ walkFiles [.file "x.go" [1, 2] true] := by
    rw [walkFiles]
    rw [if_neg (by decide), walkFiles]
    exact List.mem_singleton.2 rfl
  exact C8_hash_format_and_soft_failure.2.2 _ _ hr rfl

theorem C9_module_file_detection_witness :
    "Cargo.toml" ∈ (scan_target [.file "Cargo.toml" [1] false,
      .dir ".git" []]).module_files ∧
    ".git" ∈ (scan_target [.file "Cargo.toml" [1] false, .dir ".git" []]).module_files := by
  have hr : (⟨"Cargo.toml", [1], false⟩ : RawFile) ∈
      walkFiles [.file "Cargo.toml" [1] false, .dir ".git" []] := by
    rw [walkFiles]
    rw [if_neg (by decide)]
    exact List.mem_cons_self _ _
  have h := C9_module_file_detection _ _ hr (by decide) (by decide)
  exact ⟨h.1, h.2 _ ⟨.dir ".git" [], by simp, rfl⟩⟩
